import Mathlib

/-!
A shallow embedding of `scraper/scrape_calendar.py` (the calendar-scraping
pipeline of this repository) together with proofs that settle the claims of
its specification.  Texts are modelled as `List Char`; the `datetime` values
used for sorting are modelled as naturals that order the same way; the
network and the HTML parser are modelled as oracles at the interface the
code uses them through.
-/

namespace Calendario

/-! ## Definitions -/

/-- ASCII approximation of the regex word-character class used by the `\b`
boundaries of `DATE_RE` (Python's `\b` is Unicode-aware; every claim and
witness below keeps non-ASCII characters away from boundary positions, where
the two notions agree). -/
def isWordChar (c : Char) : Bool := c.isAlphanum || c = '_'

/-- Word-character test for an optional character; `none` stands for the
start or the end of the string, which is not a word character. -/
def isWordCharO : Option Char → Bool
  | none => false
  | some c => isWordChar c

/-- Numeric value of a decimal digit character. -/
def dv (c : Char) : Nat := c.toNat - '0'.toNat

/-- One match of `DATE_RE = \b(\d{2})/(\d{2})/(\d{4})\b`: the start offset of
the ten matched characters and the three groups parsed with `int`. -/
structure DMatch where
  start : Nat
  d : Nat
  m : Nat
  y : Nat
  deriving DecidableEq

/-- Does `DATE_RE` match at the current position?  `prev` is the character
just before the position and `rest` the text after the candidate ten
characters; both word boundaries of the pattern are checked here. -/
def goodTok (prev : Option Char) (c0 c1 s1 c3 c4 s2 c6 c7 c8 c9 : Char)
    (rest : List Char) : Bool :=
  !isWordCharO prev && c0.isDigit && c1.isDigit && s1 == '/' && c3.isDigit &&
    c4.isDigit && s2 == '/' && c6.isDigit && c7.isDigit && c8.isDigit &&
    c9.isDigit && !isWordCharO rest.head?

/-- `DATE_RE.finditer`: scan the text left to right; at a match emit it and
resume after its ten characters, otherwise advance one character.  Two
matches of this pattern can never overlap (a match would need a `/` where
the earlier match has a digit), so this greedy scan finds exactly the
positions where the pattern together with its boundaries holds. -/
def scanDates (prev : Option Char) (pos : Nat) (cs : List Char) : List DMatch :=
  match cs with
  | c0 :: c1 :: s1 :: c3 :: c4 :: s2 :: c6 :: c7 :: c8 :: c9 :: rest =>
    if goodTok prev c0 c1 s1 c3 c4 s2 c6 c7 c8 c9 rest then
      ⟨pos, 10 * dv c0 + dv c1, 10 * dv c3 + dv c4,
          1000 * dv c6 + 100 * dv c7 + 10 * dv c8 + dv c9⟩ ::
        scanDates (some c9) (pos + 10) rest
    else
      scanDates (some c0) (pos + 1)
        (c1 :: s1 :: c3 :: c4 :: s2 :: c6 :: c7 :: c8 :: c9 :: rest)
  | c :: rest => scanDates (some c) (pos + 1) rest
  | [] => []

/-- `has_date`: does `DATE_RE.search` find anything? -/
def has_date (s : List Char) : Bool := !(scanDates none 0 s).isEmpty

/-- `has_date` on `String`. -/
def has_dateS (s : String) : Bool := has_date s.data

/-- `anos_meses_de`: the `(year, month)` pairs of all dates in a text. -/
def anos_meses_de (texto : List Char) : List (Nat × Nat) :=
  (scanDates none 0 texto).map fun t => (t.y, t.m)

/-- The set `anos_q4` built by `ajustar_ano_prova_pelo_periodo_inscricao`:
years of registration dates whose two-digit month field is at least 10. -/
def anos_q4_de (inscricoes : List Char) : List Nat :=
  ((anos_meses_de inscricoes).filter fun p => 10 ≤ p.2).map fun p => p.1

/-- The Q4 years in the sense of the claim: years of registration dates
whose month field denotes October, November or December (10 to 12). -/
def anos_q4_claim (inscricoes : List Char) : List Nat :=
  ((anos_meses_de inscricoes).filter fun p => 10 ≤ p.2 && p.2 ≤ 12).map fun p => p.1

/-- Decimal digits of a natural number, as `str` renders `yy_new` inside the
f-string `f"{d:02d}/{mm:02d}/{yy_new}"`. -/
def natChars (n : Nat) : List Char := (Nat.repr n).data

/-- Formatting with the `02d` format specification. -/
def fmt2 (n : Nat) : List Char := if n < 10 then '0' :: natChars n else natChars n

/-- The replacement text spliced over a rewritten date match. -/
def repTok (d m y : Nat) : List Char :=
  fmt2 d ++ '/' :: (fmt2 m ++ '/' :: natChars (y + 1))

/-- Python's `yy in anos_q4 and 1 <= mm <= 3`. -/
def qualifies (q4 : List Nat) (m y : Nat) : Bool :=
  q4.contains y && decide (1 ≤ m) && decide (m ≤ 3)

/-- `ajustar_ano_prova_pelo_periodo_inscricao`, transcribed from the source:
collect the Q4 years of the registration text, then splice the replacement
over each qualifying exam match, processing the matches in reverse order. -/
def ajustar (inscricoes prova : List Char) : List Char :=
  if prova = [] then prova
  else
    let ins := anos_meses_de inscricoes
    let prv := scanDates none 0 prova
    if ins = [] then prova
    else if prv = [] then prova
    else
      let q4 := (ins.filter fun p => 10 ≤ p.2).map fun p => p.1
      prv.reverse.foldl
        (fun acc t =>
          if qualifies q4 t.m t.y then
            acc.take t.start ++ repTok t.d t.m t.y ++ acc.drop (t.start + 10)
          else acc)
        prova

/-- `ajustar` on `String`, as the pipeline applies it. -/
def ajustarS (inscricoes prova : String) : String :=
  ⟨ajustar inscricoes.data prova.data⟩

/-- The single-pass rewrite that the specification describes: walk the text
once, and at every date match whose year is in `q4` and whose month field is
1 to 3, emit the replacement token instead of the matched characters,
keeping every other character. -/
def rewriteScan (q4 : List Nat) (prev : Option Char) (cs : List Char) : List Char :=
  match cs with
  | c0 :: c1 :: s1 :: c3 :: c4 :: s2 :: c6 :: c7 :: c8 :: c9 :: rest =>
    if goodTok prev c0 c1 s1 c3 c4 s2 c6 c7 c8 c9 rest then
      (if qualifies q4 (10 * dv c3 + dv c4)
          (1000 * dv c6 + 100 * dv c7 + 10 * dv c8 + dv c9) then
        repTok (10 * dv c0 + dv c1) (10 * dv c3 + dv c4)
          (1000 * dv c6 + 100 * dv c7 + 10 * dv c8 + dv c9)
      else [c0, c1, s1, c3, c4, s2, c6, c7, c8, c9]) ++ rewriteScan q4 (some c9) rest
    else
      c0 :: rewriteScan q4 (some c0) (c1 :: s1 :: c3 :: c4 :: s2 :: c6 :: c7 :: c8 :: c9 :: rest)
  | c :: rest => c :: rewriteScan q4 (some c) rest
  | [] => []

/-- Adding an offset to a match position. -/
def shiftBy (q : Nat) (t : DMatch) : DMatch := ⟨t.start + q, t.d, t.m, t.y⟩

/-- One step of the replacement fold in `ajustar`. -/
def spliceStep (q4 : List Nat) (acc : List Char) (t : DMatch) : List Char :=
  if qualifies q4 t.m t.y then
    acc.take t.start ++ repTok t.d t.m t.y ++ acc.drop (t.start + 10)
  else acc

/-- Reference decimal rendering, used only inside proofs. -/
def decChars (n : Nat) : List Char :=
  if n < 10 then [Nat.digitChar n]
  else decChars (n / 10) ++ [Nat.digitChar (n % 10)]
decreasing_by exact Nat.div_lt_self (by omega) (by omega)

/-- Is the full `DATE_RE` pattern present at the head of the text? -/
def headGoodB (prev : Option Char) (cs : List Char) : Bool :=
  match cs with
  | c0 :: c1 :: s1 :: c3 :: c4 :: s2 :: c6 :: c7 :: c8 :: c9 :: rest =>
    goodTok prev c0 c1 s1 c3 c4 s2 c6 c7 c8 c9 rest
  | _ => false

/-- Two characters with the same digit-or-not class, equal when not digits.
Replacing characters along this relation never changes which positions of a
text the date pattern matches at. -/
def chClassEq (a b : Char) : Prop := a.isDigit = b.isDigit ∧ (a.isDigit = false → a = b)

/-- The side condition under which reapplying the corrector is the identity:
every match that actually gets rewritten keeps a four-digit year after the
increment, and the incremented year is not itself a Q4 year. -/
def SafeB (q4 : List Nat) (p : Option Char) (cs : List Char) : Prop :=
  ∀ t ∈ scanDates p 0 cs, qualifies q4 t.m t.y = true →
    999 ≤ t.y ∧ t.y ≤ 9998 ∧ q4.contains (t.y + 1) = false

instance (q4 : List Nat) (p : Option Char) (cs : List Char) : Decidable (SafeB q4 p cs) := by
  unfold SafeB
  infer_instance

/-- One calendar row as `main` builds it: the four table fields, the two
detail fields (empty until the detail step assigns them), and the internal
notice link `_EDITAL_URL`. -/
structure Rec where
  uf : String
  instituicao : String
  inscricoes : String
  prova : String
  gabarito : String
  resultado : String
  editalUrl : Option String
  deriving DecidableEq

/-- Python's `str.strip`: drop whitespace at both ends (written on the
character list so that it evaluates inside the kernel). -/
def trimChars (cs : List Char) : List Char :=
  ((cs.dropWhile Char.isWhitespace).reverse.dropWhile Char.isWhitespace).reverse

/-- `str.strip` on `String`. -/
def trimS (s : String) : String := ⟨trimChars s.data⟩

/-- `str.upper` (ASCII, like every region and institution text considered
in witnesses). -/
def upperS (s : String) : String := ⟨s.data.map Char.toUpper⟩

/-- `key_of` from `main`: upper-cased trimmed region and institution, trimmed
registration period and exam text. -/
def key_of (r : Rec) : String × String × String × String :=
  (upperS (trimS r.uf), upperS (trimS r.instituicao), trimS r.inscricoes, trimS r.prova)

/-- The dedup loop of `main`: `seen` is the set of keys met so far; the first
record of each key is kept. -/
def dedupGo (seen : List (String × String × String × String)) : List Rec → List Rec
  | [] => []
  | r :: rs =>
    if key_of r ∈ seen then dedupGo seen rs
    else r :: dedupGo (key_of r :: seen) rs

/-- Steps 4 of `main`: one left-to-right scan keeping first occurrences. -/
def dedupRecs (rows : List Rec) : List Rec := dedupGo [] rows

/-- Leap-year aware month length, exactly the validation `datetime` applies. -/
def daysInMonth (y m : Nat) : Nat :=
  if m = 2 then (if (y % 4 = 0 ∧ y % 100 ≠ 0) ∨ y % 400 = 0 then 29 else 28)
  else if m = 4 ∨ m = 6 ∨ m = 9 ∨ m = 11 then 30 else 31

/-- The `datetime(y, mth, d)` constructor succeeds exactly on these values
(`MINYEAR = 1`, `MAXYEAR = 9999`). -/
def validDate (y m d : Nat) : Bool :=
  decide (1 ≤ y) && decide (y ≤ 9999) && decide (1 ≤ m) && decide (m ≤ 12) &&
    decide (1 ≤ d) && decide (d ≤ daysInMonth y m)

/-- `parse_date_br_first`: the first `DATE_RE` match of the text, returned as
`(year, month, day)` when `datetime` accepts it, `none` otherwise (also when
the first match is an invalid date: the code never looks at later matches). -/
def parse_date_br_first (s : List Char) : Option (Nat × Nat × Nat) :=
  match scanDates none 0 s with
  | [] => none
  | t :: _ => if validDate t.y t.m t.d then some (t.y, t.m, t.d) else none

/-- The sort key of step 5 of `main`, encoded as a natural that orders
exactly like the `datetime` values the code compares: `datetime` compares
`(y, m, d)` lexicographically and `m ≤ 12`, `d ≤ 31`, so the encoding
`y * 10000 + m * 100 + d ≤ 99991231` is order-isomorphic; the `datetime.max`
fallback for a missing date carries the time 23:59:59.999999 and therefore
compares strictly above every parsed date (which has time 00:00), so it is
encoded as `10 ^ 8`, strictly above every encoded date. -/
def sortKeyRec (r : Rec) : Nat :=
  match parse_date_br_first r.prova.data with
  | some (y, m, d) => y * 10000 + m * 100 + d
  | none => 100000000

/-- Stable insertion used to model `list.sort(key=...)`: the new element goes
in front of the first element whose key is not smaller, so earlier input
elements stay in front of later ones with an equal key.  A stable sort's
output is unique (equal keys keep input order, keys are non-decreasing), so
this models Python's Timsort exactly. -/
def insortRec (x : Rec) : List Rec → List Rec
  | [] => [x]
  | y :: ys => if sortKeyRec y < sortKeyRec x then y :: insortRec x ys else x :: y :: ys

/-- Step 5 of `main`: stable sort by `sortKeyRec`. -/
def sortRecs : List Rec → List Rec
  | [] => []
  | x :: xs => insortRec x (sortRecs xs)

/-- A record used by witnesses. -/
def mkRec (uf instituicao inscricoes prova : String) : Rec :=
  ⟨uf, instituicao, inscricoes, prova, "-", "-", none⟩

/-- The fields `parse_detail_page` can return (the keys `data_prova`,
`gabarito_preliminar` and `resultado_final` of its result dictionary). -/
structure Detail where
  data_prova : Option String
  gabarito_preliminar : Option String
  resultado_final : Option String
  deriving DecidableEq

/-- Python falsiness of an optional string (`None` and `""` are falsy). -/
def falsyOS : Option String → Bool
  | none => true
  | some s => s == ""

/-- Step 2 of `main` for one row: `none` for the detail stands for the
exception path (the `except` branch).  A row without a notice link, or whose
detail resolution failed, gets the sentinel in both detail fields; otherwise
the exam text is replaced only by a non-empty detail value containing a
date, and each detail field is kept only when it contains a date, the
sentinel `-` otherwise. -/
def enrich (r : Rec) (d : Option Detail) : Rec :=
  if falsyOS r.editalUrl then { r with gabarito := "-", resultado := "-" }
  else
    match d with
    | none => { r with gabarito := "-", resultado := "-" }
    | some dt =>
      let prova2 := match dt.data_prova with
        | some s => if !(s == "") && has_dateS s then s else r.prova
        | none => r.prova
      let gab := match dt.gabarito_preliminar with
        | some g => if has_dateS g then g else "-"
        | none => "-"
      let res := match dt.resultado_final with
        | some v => if has_dateS v then v else "-"
        | none => "-"
      { r with prova := prova2, gabarito := gab, resultado := res }

/-- Step 3 of `main` for one row: the year-rollover correction. -/
def correctStep (r : Rec) : Rec := { r with prova := ajustarS r.inscricoes r.prova }

/-- Steps 2 to 5 of `main`: enrich every row with its detail outcome, correct
the exam year, deduplicate, sort. -/
def pipeline (input : List (Rec × Option Detail)) : List Rec :=
  sortRecs (dedupRecs (input.map fun p => correctStep (enrich p.1 p.2)))

/-- A table cell as the scraper sees it: its tag (`th` or `td`), its
`get_text(strip=True)` text, and the `href` values of its `a[href]`
descendants in document order. -/
structure HCell where
  isTh : Bool
  text : String
  links : List String
  deriving DecidableEq

/-- A table row (`tr`). -/
structure HRow where
  cells : List HCell
  deriving DecidableEq

/-- A table: the rows of its `thead` (when present) and of its `tbody` (when
present).  `find_all("tr")` on the table returns the `thead` rows followed by
the `tbody` rows, in document order. -/
structure HTable where
  thead : Option (List HRow)
  tbody : Option (List HRow)
  deriving DecidableEq

/-- `table.find_all("tr")`. -/
def allRows (tb : HTable) : List HRow := tb.thead.getD [] ++ tb.tbody.getD []

/-- Strip the diacritics the NFKD decomposition removes, for the Latin
letters that occur on the page (an approximation of full NFKD, which agrees
with it on every alias and header considered here). -/
def stripAccent (c : Char) : Char :=
  match c with
  | 'á' | 'à' | 'â' | 'ã' | 'ä' | 'Á' | 'À' | 'Â' | 'Ã' | 'Ä' => 'a'
  | 'é' | 'è' | 'ê' | 'ë' | 'É' | 'È' | 'Ê' | 'Ë' => 'e'
  | 'í' | 'ì' | 'î' | 'ï' | 'Í' | 'Ì' | 'Î' | 'Ï' => 'i'
  | 'ó' | 'ò' | 'ô' | 'õ' | 'ö' | 'Ó' | 'Ò' | 'Ô' | 'Õ' | 'Ö' => 'o'
  | 'ú' | 'ù' | 'û' | 'ü' | 'Ú' | 'Ù' | 'Û' | 'Ü' => 'u'
  | 'ç' | 'Ç' => 'c'
  | _ => c

/-- Collapse every whitespace run into a single space (`re.sub(r"\s+", " ")`);
`prevWs` records whether the previous character was whitespace. -/
def collapseWsGo (prevWs : Bool) : List Char → List Char
  | [] => []
  | c :: cs =>
    if c.isWhitespace then
      (if prevWs then collapseWsGo true cs else ' ' :: collapseWsGo true cs)
    else c :: collapseWsGo false cs

/-- `normalize_text`: strip, lower-case, drop diacritics (NFKD followed by
removal of combining marks), collapse whitespace runs. -/
def normalize_text (s : String) : String :=
  ⟨collapseWsGo false ((trimChars s.data).map fun c => stripAccent c.toLower)⟩

/-- The `ALIASES` dictionary, in its insertion order. -/
def aliasTable : List (String × List String) :=
  [("uf", ["uf"]),
   ("selecao", ["selecao", "selecao/instituicao", "instituicao", "instituicao/seleção",
     "selecao - instituicao"]),
   ("inscricoes", ["inscricoes", "inscricao", "periodo de inscricoes"]),
   ("prova", ["prova objetiva", "data da prova", "prova", "data prova"]),
   ("edital", ["edital", "link do edital"])]

/-- Python's `opt in h` substring test. -/
def substrOf (needle hay : String) : Bool := decide (needle.data <:+: hay.data)

/-- `header_key`: normalize the header text and return the first canonical
field one of whose aliases occurs in it as a substring. -/
def header_key (h : String) : Option String :=
  let hn := normalize_text h
  (aliasTable.find? fun p => p.2.any fun opt => substrOf opt hn).map fun p => p.1

/-- The header labels `find_calendar_table` derives for a table: the texts
of the `th` cells of the `thead` when there is one, otherwise the cell texts
of the first `tr` of the table (none when the table has no row at all). -/
def headersOf (tb : HTable) : List String :=
  match tb.thead with
  | some rows => (((rows.map fun r => r.cells).flatten).filter fun c => c.isTh).map
      fun c => c.text
  | none =>
    match allRows tb with
    | r :: _ => r.cells.map fun c => c.text
    | [] => []

/-- The candidate score: how many of the four fields `uf`, `selecao`,
`inscricoes`, `prova` are recovered from the headers. -/
def scoreOf (tb : HTable) : Nat :=
  let keys := (headersOf tb).filterMap header_key
  (["uf", "selecao", "inscricoes", "prova"].filter fun k => keys.contains k).length

/-- First candidate of maximal score (Python sorts the candidates by score
descending with a stable sort and takes the head, which is the first
candidate whose score is maximal). -/
def pickGo (best : Nat × HTable × List String) :
    List (Nat × HTable × List String) → HTable × List String
  | [] => (best.2.1, best.2.2)
  | c :: cs => if best.1 < c.1 then pickGo c cs else pickGo best cs

/-- Head of the stably score-sorted candidate list. -/
def pickBest : List (Nat × HTable × List String) → Option (HTable × List String)
  | [] => none
  | c :: cs => some (pickGo c cs)

/-- `find_calendar_table`: every table with a `tbody` whose headers recover a
score of at least 3 is a candidate; the first candidate of maximal score
wins; `none` when there is no candidate. -/
def find_calendar_table (tables : List HTable) : Option (HTable × List String) :=
  pickBest (tables.filterMap fun tb =>
    if tb.tbody.isSome then
      (if 3 ≤ scoreOf tb then some (scoreOf tb, tb, headersOf tb) else none)
    else none)

/-- `header_map`: first index of each canonical field among the headers. -/
def header_map (headers : List String) : List (String × Nat) :=
  headers.enum.foldl
    (fun m p =>
      match header_key p.2 with
      | some k => if (m.lookup k).isSome then m else m ++ [(k, p.1)]
      | none => m)
    []

/-- `col_text`: the text of the cell of a resolved column, `""` when the
column is unresolved or the row is too short. -/
def col_text (m : List (String × Nat)) (tds : List HCell) (k : String) : String :=
  match m.lookup k with
  | some i =>
    match tds.get? i with
    | some c => c.text
    | none => ""
  | none => ""

/-- The resolved region text of a row. -/
def ufOf (m : List (String × Nat)) (tr : HRow) : String := col_text m tr.cells "uf"

/-- The resolved institution text of a row: the institution column's text,
falling back to the raw second cell when that is empty. -/
def selOf (m : List (String × Nat)) (tr : HRow) : String :=
  let s := col_text m tr.cells "selecao"
  if s == "" then (((tr.cells.get? 1).map fun c => c.text).getD "") else s

/-- `_get_link` on a cell: the first `a[href]`, stripped. -/
def get_link_cell (c : HCell) : Option String := c.links.head?.map trimS

/-- `_get_link` on a row: the first `a[href]` anywhere in the row. -/
def get_link_row (r : HRow) : Option String :=
  ((r.cells.map fun c => c.links).flatten).head?.map trimS

/-- The notice-link resolution of a row, in the priority order of the code:
the notice column, then the institution column (index defaulting to 1), then
the first link of the row; Python treats `None` and `""` as absent. -/
def editalOf (m : List (String × Nat)) (tr : HRow) : Option String :=
  let tds := tr.cells
  let l1 : Option String :=
    match m.lookup "edital" with
    | some i =>
      match tds.get? i with
      | some c => get_link_cell c
      | none => none
    | none => none
  let l2 :=
    if falsyOS l1 then
      match tds.get? ((m.lookup "selecao").getD 1) with
      | some c => get_link_cell c
      | none => l1
    else l1
  if falsyOS l2 then get_link_row tr else l2

/-- One body row of `parse_main_table`: skipped when it has fewer than three
cells or when the region or the resolved institution text is empty. -/
def rowRecord (m : List (String × Nat)) (tr : HRow) : Option Rec :=
  if tr.cells.length < 3 then none
  else
    if ufOf m tr == "" || selOf m tr == "" then none
    else
      some ⟨ufOf m tr, selOf m tr, col_text m tr.cells "inscricoes",
        col_text m tr.cells "prova", "", "", editalOf m tr⟩

/-- `parse_main_table`: resolve the columns, skip the first row exactly when
the table has a `thead` (and has any row), and map the remaining rows. -/
def parse_main_table (tb : HTable) (headers : List String) : List Rec :=
  let m := header_map headers
  let rows := allRows tb
  let body := if tb.thead.isSome && !rows.isEmpty then rows.tail else rows
  body.filterMap (rowRecord m)

/-- A table whose headers recover three canonical fields but which has no
`tbody` element. -/
def tableNoBody : HTable :=
  ⟨some [⟨[⟨true, "UF", []⟩, ⟨true, "Instituição", []⟩, ⟨true, "Inscrições", []⟩]⟩], none⟩

/-- The calendar table of the witness page. -/
def tableGood : HTable :=
  ⟨some [⟨[⟨true, "UF", []⟩, ⟨true, "Instituição", []⟩, ⟨true, "Inscrições", []⟩,
      ⟨true, "Prova Objetiva", []⟩]⟩],
    some [⟨[⟨false, "SP", []⟩, ⟨false, "USP", []⟩, ⟨false, "01/11/2024 a 15/12/2024", []⟩,
      ⟨false, "10/02/2025", []⟩]⟩]⟩

/-- A decoy table whose headers match nothing. -/
def tableJunk : HTable :=
  ⟨none, some [⟨[⟨false, "Foo", []⟩, ⟨false, "Bar", []⟩, ⟨false, "Baz", []⟩]⟩]⟩

/-- A located table with a body row whose institution-column cell is empty
while its second cell is not. -/
def tableEmptyInstCell : HTable :=
  ⟨some [⟨[⟨true, "UF", []⟩, ⟨true, "Coluna", []⟩, ⟨true, "Instituição", []⟩,
      ⟨true, "Inscrições", []⟩, ⟨true, "Prova Objetiva", []⟩]⟩],
    some [⟨[⟨false, "SP", []⟩, ⟨false, "Reserva", []⟩, ⟨false, "", []⟩,
      ⟨false, "01/11/2024 a 15/12/2024", []⟩, ⟨false, "10/02/2025", []⟩]⟩]⟩

/-- A table with no `thead`: its first row doubles as header source and body
row. -/
def tableNoThead : HTable :=
  ⟨none, some [⟨[⟨false, "UF", []⟩, ⟨false, "Instituição", []⟩, ⟨false, "Inscrições", []⟩,
      ⟨false, "Prova", []⟩]⟩,
    ⟨[⟨false, "SP", []⟩, ⟨false, "USP", []⟩, ⟨false, "01/11/2024 a 15/12/2024", []⟩,
      ⟨false, "10/02/2025", []⟩]⟩]⟩

/-- The main page URL. -/
def URLmain : String :=
  "https://med.estrategia.com/portal/residencia-medica/calendario-de-residencia-medica-confira-as-datas-das-proximas-provas/"

/-- `startswith`, written on the character lists so it evaluates. -/
def beginsWith (s pre : String) : Bool := decide (pre.data <+: s.data)

/-- `endswith`. -/
def finishesWith (s suf : String) : Bool := decide (suf.data <:+ s.data)

/-- The scheme-and-host part of a URL: the characters up to the third `/`. -/
def takeToSlash : Nat → List Char → List Char
  | _, [] => []
  | n, c :: cs =>
    if c = '/' then (if n ≤ 1 then [] else c :: takeToSlash (n - 1) cs)
    else c :: takeToSlash n cs

/-- Simplified model of `urllib.parse.urljoin` for the references the
scraper meets: an absolute reference is returned unchanged, a root-relative
reference replaces the whole path of the base, and any other reference
replaces the last path segment of the base.  The scraper only ever joins
against the fixed main-page URL. -/
def urljoin_model (base rel : String) : String :=
  if beginsWith rel "http" then rel
  else if beginsWith rel "/" then ⟨takeToSlash 3 base.data⟩ ++ rel
  else ⟨(base.data.reverse.dropWhile fun c => !(c == '/')).reverse⟩ ++ rel

/-- `base` in `parse_detail_page`: relative notice links are resolved
against the main page URL. -/
def baseOf (edital_url : String) : String :=
  if beginsWith edital_url "http" then edital_url else urljoin_model URLmain edital_url

/-- Variant 2: the URL with a trailing slash enforced. -/
def ensureSlash (s : String) : String := if finishesWith s "/" then s else s ++ "/"

/-- Variant 3: an `amp` query marker added, unless `amp` already occurs
anywhere in the URL. -/
def addAmp (s : String) : String :=
  if substrOf "amp" s then s
  else s ++ (if substrOf "?" s then "&" else "?") ++ "amp"

/-- `rstrip("/")`. -/
def rstripSlash (s : String) : String := ⟨(s.data.reverse.dropWhile fun c => c == '/').reverse⟩

/-- Variant 4: the explicit `/amp/` suffix. -/
def ampSuffix (s : String) : String := rstripSlash s ++ "/amp/"

/-- The four URL variants, in the order the code tries them. -/
def variantsOf (b : String) : List String := [b, ensureSlash b, addAmp b, ampSuffix b]

/-- The empty result dictionary. -/
def emptyDetail : Detail := ⟨none, none, none⟩

/-- `any(k in out for k in ("data_prova", "gabarito_preliminar",
"resultado_final"))`. -/
def nonemptyDetail (d : Detail) : Bool :=
  d.data_prova.isSome || d.gabarito_preliminar.isSome || d.resultado_final.isSome

/-- A label/value pair list as a `<dl>` element exposes it: its `dt` texts
and its `dd` texts, zipped by the code. -/
structure DlElem where
  dts : List String
  dds : List String
  deriving DecidableEq

/-- A notice page as the detail extractor reads it. -/
structure DetailPage where
  tables : List HTable
  dls : List DlElem
  deriving DecidableEq

/-- `accept_data_da_prova`: only the three exact normalized labels. -/
def accept_data_da_prova (l : String) : Bool :=
  l == "data da prova" || l == "prova objetiva" || l == "data prova"

/-- `accept_gabarito`: must contain both tokens. -/
def accept_gabarito (l : String) : Bool := substrOf "gabarito" l && substrOf "preliminar" l

/-- `accept_resultado`: either phrasing. -/
def accept_resultado (l : String) : Bool :=
  substrOf "resultado final" l || substrOf "classificacao final" l

/-- One label/value pair of the detail page: a matched field is stored only
when the value contains a date; later matches overwrite earlier ones. -/
def detailRowStep (out : Detail) (label value : String) : Detail :=
  let ln := normalize_text label
  if accept_data_da_prova ln then
    (if has_dateS value then { out with data_prova := some value } else out)
  else if accept_gabarito ln then
    (if has_dateS value then { out with gabarito_preliminar := some value } else out)
  else if accept_resultado ln then
    (if has_dateS value then { out with resultado_final := some value } else out)
  else out

/-- `_extract_detail_from_soup`: scan every table row with at least two
cells; when no recognized field was found there, fall back to the `<dl>`
structures with the same acceptance rules. -/
def extract_detail (p : DetailPage) : Detail :=
  let out := p.tables.foldl
    (fun out tb =>
      (allRows tb).foldl
        (fun out tr =>
          match tr.cells with
          | c0 :: c1 :: _ => detailRowStep out c0.text c1.text
          | _ => out)
        out)
    emptyDetail
  if nonemptyDetail out then out
  else
    p.dls.foldl
      (fun o dl => (dl.dts.zip dl.dds).foldl (fun o pr => detailRowStep o pr.1 pr.2) o)
      out

/-- The variant loop of `parse_detail_page`: `g u = none` models an
exception while fetching or parsing variant `u`; a successful extraction
replaces `out`, and the loop stops at the first extraction with at least
one recognized field. -/
def tryVariants (g : String → Option Detail) : List String → Detail → Detail
  | [], out => out
  | u :: us, out =>
    match g u with
    | none => tryVariants g us out
    | some o => if nonemptyDetail o then o else tryVariants g us o

/-- `parse_detail_page` over a fetch oracle (`fetch u = none` is a network
or parse failure for that variant). -/
def parse_detail_page (fetch : String → Option DetailPage) (edital_url : String) : Detail :=
  if edital_url == "" then emptyDetail
  else tryVariants (fun u => (fetch u).map extract_detail) (variantsOf (baseOf edital_url))
    emptyDetail

/-- One network attempt: a transport failure, or an HTTP response with a
status code. -/
inductive Outcome where
  | transport
  | status (code : Nat)
  deriving DecidableEq

/-- Does the attempt leave the `try` block normally?  The code raises
explicitly for a status of at least 500, and `raise_for_status` raises for
every status in [400, 600) — including every 4xx — and the surrounding
`except Exception` catches them all alike. -/
def attemptOk : Outcome → Bool
  | .transport => false
  | .status c => !(decide (400 ≤ c) && decide (c < 600))

/-- The retry loop of `_req_get` from attempt `i` with `rem` tries left:
returns the index of the successful attempt (`none` when the loop exhausts
and the last exception is re-raised), the number of attempts made, and the
sleeps performed (`base_sleep * 2 ** i` after every failed attempt, the last
one included). -/
def req_get_go (resp : Nat → Outcome) (b : ℚ) : Nat → Nat → Option Nat × Nat × List ℚ
  | _, 0 => (none, 0, [])
  | i, rem + 1 =>
    if attemptOk (resp i) then (some i, 1, [])
    else
      let r := req_get_go resp b (i + 1) rem
      (r.1, r.2.1 + 1, b * 2 ^ i :: r.2.2)

/-- `_req_get` with its default `tries = 4` and backoff base `b`. -/
def req_get_run (resp : Nat → Outcome) (b : ℚ) : Option Nat × Nat × List ℚ :=
  req_get_go resp b 0 4

/-! ## Theorems -/

theorem map_shiftBy_shiftBy (a b : Nat) (l : List DMatch) :
    (l.map (shiftBy b)).map (shiftBy a) = l.map (shiftBy (a + b)) := by
  rw [List.map_map]
  refine List.map_congr_left fun t _ => ?_
  simp [shiftBy, Function.comp]
  omega

theorem scanDates_shift (prev : Option Char) (pos : Nat) (cs : List Char) :
    ∀ q, scanDates prev q cs = (scanDates prev 0 cs).map (shiftBy q) := by
  induction prev, pos, cs using scanDates.induct with
  | case1 prev pos c0 c1 s1 c3 c4 s2 c6 c7 c8 c9 rest h ih =>
    intro q
    rw [scanDates.eq_1, if_pos h, scanDates.eq_1, if_pos h, List.map_cons, ih, ih 10,
      map_shiftBy_shiftBy]
    simp [shiftBy]
  | case2 prev pos c0 c1 s1 c3 c4 s2 c6 c7 c8 c9 rest h ih =>
    intro q
    rw [scanDates.eq_1, if_neg h, scanDates.eq_1, if_neg h, ih, ih 1, map_shiftBy_shiftBy]
  | case3 prev pos c rest hne ih =>
    intro q
    rw [scanDates.eq_2 _ _ _ _ hne, scanDates.eq_2 _ _ _ _ hne, ih, ih 1, map_shiftBy_shiftBy]
  | case4 prev pos =>
    intro q
    rfl

theorem mem_scan_shift {t : DMatch} {p : Option Char} {cs : List Char} (k : Nat)
    (ht : t ∈ scanDates p 0 cs) :
    (⟨t.start + k, t.d, t.m, t.y⟩ : DMatch) ∈ scanDates p k cs := by
  rw [scanDates_shift p 0 cs k]
  exact List.mem_map.mpr ⟨t, ht, rfl⟩

theorem foldr_spliceStep_shift (q4 : List Nat) (ms : List DMatch) (pre l : List Char)
    (n : Nat) (hn : pre.length = n) :
    (ms.map (shiftBy n)).foldr (fun t acc => spliceStep q4 acc t) (pre ++ l) =
      pre ++ ms.foldr (fun t acc => spliceStep q4 acc t) l := by
  subst hn
  induction ms with
  | nil => rfl
  | cons t ms ih =>
    rw [List.map_cons, List.foldr_cons, List.foldr_cons, ih]
    show spliceStep q4 (pre ++ ms.foldr (fun t acc => spliceStep q4 acc t) l)
        (shiftBy pre.length t) =
      pre ++ spliceStep q4 (ms.foldr (fun t acc => spliceStep q4 acc t) l) t
    unfold spliceStep shiftBy
    by_cases hq : qualifies q4 t.m t.y = true
    · rw [if_pos hq, if_pos hq, Nat.add_comm t.start pre.length, List.take_append,
        Nat.add_assoc, List.drop_append]
      simp
    · rw [if_neg hq, if_neg hq]

theorem foldr_spliceStep_eq_rewriteScan (q4 : List Nat) (prev : Option Char) (pos : Nat)
    (cs : List Char) :
    (scanDates prev 0 cs).foldr (fun t acc => spliceStep q4 acc t) cs = rewriteScan q4 prev cs := by
  induction prev, pos, cs using scanDates.induct with
  | case1 prev pos c0 c1 s1 c3 c4 s2 c6 c7 c8 c9 rest h ih =>
    have hsplit : c0 :: c1 :: s1 :: c3 :: c4 :: s2 :: c6 :: c7 :: c8 :: c9 :: rest =
        [c0, c1, s1, c3, c4, s2, c6, c7, c8, c9] ++ rest := rfl
    rw [scanDates.eq_1, if_pos h, rewriteScan.eq_1, if_pos h, List.foldr_cons,
      scanDates_shift (some c9) 0 rest 10, hsplit,
      foldr_spliceStep_shift q4 _ [c0, c1, s1, c3, c4, s2, c6, c7, c8, c9] rest 10 rfl, ih]
    unfold spliceStep
    by_cases hq : qualifies q4 (10 * dv c3 + dv c4)
        (1000 * dv c6 + 100 * dv c7 + 10 * dv c8 + dv c9) = true
    · rw [if_pos hq, if_pos hq]
      simp
    · rw [if_neg hq, if_neg hq]
  | case2 prev pos c0 c1 s1 c3 c4 s2 c6 c7 c8 c9 rest h ih =>
    have hsplit : c0 :: c1 :: s1 :: c3 :: c4 :: s2 :: c6 :: c7 :: c8 :: c9 :: rest =
        [c0] ++ c1 :: s1 :: c3 :: c4 :: s2 :: c6 :: c7 :: c8 :: c9 :: rest := rfl
    rw [scanDates.eq_1, if_neg h, rewriteScan.eq_1, if_neg h,
      scanDates_shift _ 0 _ 1, hsplit,
      foldr_spliceStep_shift q4 _ [c0] _ 1 rfl, ih]
    rfl
  | case3 prev pos c rest hne ih =>
    have hsplit : c :: rest = [c] ++ rest := rfl
    rw [scanDates.eq_2 _ _ _ _ hne, rewriteScan.eq_2 _ _ _ _ hne,
      scanDates_shift _ 0 _ 1, hsplit, foldr_spliceStep_shift q4 _ [c] _ 1 rfl, ih]
    rfl
  | case4 prev pos =>
    rfl

theorem rewriteScan_nilq4 (prev : Option Char) (pos : Nat) (cs : List Char) :
    rewriteScan [] prev cs = cs := by
  induction prev, pos, cs using scanDates.induct with
  | case1 prev pos c0 c1 s1 c3 c4 s2 c6 c7 c8 c9 rest h ih =>
    rw [rewriteScan.eq_1, if_pos h]
    have : qualifies [] (10 * dv c3 + dv c4)
        (1000 * dv c6 + 100 * dv c7 + 10 * dv c8 + dv c9) = false := by
      simp [qualifies]
    rw [this]
    simp [ih]
  | case2 prev pos c0 c1 s1 c3 c4 s2 c6 c7 c8 c9 rest h ih =>
    rw [rewriteScan.eq_1, if_neg h, ih]
  | case3 prev pos c rest hne ih =>
    rw [rewriteScan.eq_2 _ _ _ _ hne, ih]
  | case4 prev pos => rfl

theorem ajustar_eq_rewriteScan (inscricoes prova : List Char) :
    ajustar inscricoes prova = rewriteScan (anos_q4_de inscricoes) none prova := by
  unfold ajustar
  by_cases h0 : prova = []
  · subst h0
    simp [rewriteScan]
  · rw [if_neg h0]
    by_cases h1 : anos_meses_de inscricoes = []
    · rw [if_pos h1]
      have : anos_q4_de inscricoes = [] := by
        unfold anos_q4_de
        rw [h1]
        rfl
      rw [this, rewriteScan_nilq4 none 0]
    · rw [if_neg h1]
      by_cases h2 : scanDates none 0 prova = []
      · rw [if_pos h2]
        rw [← foldr_spliceStep_eq_rewriteScan (anos_q4_de inscricoes) none 0 prova, h2]
        rfl
      · rw [if_neg h2]
        rw [← foldr_spliceStep_eq_rewriteScan (anos_q4_de inscricoes) none 0 prova]
        rw [List.foldl_reverse]
        rfl

theorem toDigitsCore_ten (f : Nat) :
    ∀ n ds, n < f → Nat.toDigitsCore 10 f n ds = decChars n ++ ds := by
  induction f with
  | zero => omega
  | succ f ih =>
    intro n ds h
    rw [Nat.toDigitsCore]
    by_cases h0 : n / 10 = 0
    · have hn : n < 10 := by omega
      rw [if_pos h0, decChars, if_pos hn, Nat.mod_eq_of_lt hn]
      rfl
    · have hn : ¬n < 10 := by omega
      have hdiv : n / 10 < n := Nat.div_lt_self (by omega) (by omega)
      have hlt : n / 10 < f := by omega
      rw [if_neg h0, ih _ _ hlt]
      conv_rhs => rw [decChars]
      rw [if_neg hn, List.append_assoc]
      rfl

theorem natChars_eq_decChars (n : Nat) : natChars n = decChars n := by
  show (Nat.repr n).data = decChars n
  rw [Nat.repr, Nat.toDigits, toDigitsCore_ten (n + 1) n [] (by omega)]
  simp [List.asString]

theorem digitChar_isDigit : ∀ k < 10, (Nat.digitChar k).isDigit = true := by decide

theorem dv_digitChar : ∀ k < 10, dv (Nat.digitChar k) = k := by decide

theorem dv_lt_ten {c : Char} (h : c.isDigit = true) : dv c < 10 := by
  simp only [Char.isDigit, Bool.and_eq_true, decide_eq_true_eq] at h
  rcases h with ⟨h1, h2⟩
  have g1 : ('0' : Char).toNat ≤ c.toNat := h1
  have g2 : c.toNat ≤ ('9' : Char).toNat := h2
  have e0 : ('0' : Char).toNat = 48 := by decide
  have e9 : ('9' : Char).toNat = 57 := by decide
  unfold dv
  omega

theorem decChars_step (n : Nat) (h : 10 ≤ n) :
    decChars n = decChars (n / 10) ++ [Nat.digitChar (n % 10)] := by
  rw [decChars, if_neg (by omega)]

theorem decChars_single (n : Nat) (h : n < 10) : decChars n = [Nat.digitChar n] := by
  rw [decChars, if_pos h]

theorem fmt2_pair (n : Nat) (h : n ≤ 99) :
    fmt2 n = [Nat.digitChar (n / 10), Nat.digitChar (n % 10)] := by
  unfold fmt2
  by_cases h0 : n < 10
  · rw [if_pos h0, natChars_eq_decChars, decChars_single n h0]
    have e1 : n / 10 = 0 := by omega
    have e2 : n % 10 = n := by omega
    rw [e1, e2]
    rfl
  · rw [if_neg h0, natChars_eq_decChars, decChars_step n (by omega),
      decChars_single (n / 10) (by omega)]
    rfl

theorem natChars_four (n : Nat) (h1 : 1000 ≤ n) (h2 : n ≤ 9999) :
    natChars n = [Nat.digitChar (n / 1000), Nat.digitChar (n / 100 % 10),
      Nat.digitChar (n / 10 % 10), Nat.digitChar (n % 10)] := by
  have e1 : n / 10 / 10 = n / 100 := by
    rw [Nat.div_div_eq_div_mul]
  have e2 : n / 100 / 10 = n / 1000 := by
    rw [Nat.div_div_eq_div_mul]
  rw [natChars_eq_decChars, decChars_step n (by omega), decChars_step (n / 10) (by omega), e1,
    decChars_step (n / 100) (by omega), e2, decChars_single (n / 1000) (by omega)]
  rfl

theorem chClassEq_self (a : Char) : chClassEq a a := ⟨rfl, fun _ => rfl⟩

theorem chClassEq_digits {a b : Char} (ha : a.isDigit = true) (hb : b.isDigit = true) :
    chClassEq a b := ⟨ha.trans hb.symm, fun hf => Bool.noConfusion (ha.symm.trans hf)⟩

theorem isDigit_isWordChar {c : Char} (h : c.isDigit = true) : isWordChar c = true := by
  simp [isWordChar, Char.isAlphanum, h]

theorem chClassEq_word {a b : Char} (h : chClassEq a b) : isWordChar a = isWordChar b := by
  rcases h with ⟨h1, h2⟩
  by_cases hd : a.isDigit = true
  · rw [isDigit_isWordChar hd, isDigit_isWordChar (h1 ▸ hd)]
  · rw [h2 (by simpa using hd)]

theorem chClassEq_slash {a b : Char} (h : chClassEq a b) : (a == '/') = (b == '/') := by
  rcases h with ⟨h1, h2⟩
  by_cases hd : a.isDigit = true
  · have ha : a ≠ '/' := by
      intro e
      rw [e] at hd
      exact absurd hd (by decide)
    have hbs : b ≠ '/' := by
      intro e
      rw [e, show ('/' : Char).isDigit = false from by decide, hd] at h1
      exact Bool.noConfusion h1
    rw [beq_eq_false_iff_ne.mpr ha, beq_eq_false_iff_ne.mpr hbs]
  · rw [h2 (by simpa using hd)]

theorem forall2_head_class {xs ys : List Char} (h : List.Forall₂ chClassEq xs ys) :
    isWordCharO xs.head? = isWordCharO ys.head? := by
  cases h with
  | nil => rfl
  | cons h0 h1 => exact chClassEq_word h0

theorem headGoodB_shape {p q : Option Char} (hpq : isWordCharO p = isWordCharO q) :
    ∀ {xs ys : List Char}, List.Forall₂ chClassEq xs ys → headGoodB p xs = headGoodB q ys := by
  intro xs ys h
  cases h with
  | nil => rfl
  | cons h0 h =>
    cases h with
    | nil => rfl
    | cons h1 h =>
      cases h with
      | nil => rfl
      | cons h2 h =>
        cases h with
        | nil => rfl
        | cons h3 h =>
          cases h with
          | nil => rfl
          | cons h4 h =>
            cases h with
            | nil => rfl
            | cons h5 h =>
              cases h with
              | nil => rfl
              | cons h6 h =>
                cases h with
                | nil => rfl
                | cons h7 h =>
                  cases h with
                  | nil => rfl
                  | cons h8 h =>
                    cases h with
                    | nil => rfl
                    | cons h9 h =>
                      rw [headGoodB, headGoodB]
                      unfold goodTok
                      rw [hpq, h0.1, h1.1, chClassEq_slash h2, h3.1, h4.1, chClassEq_slash h5,
                        h6.1, h7.1, h8.1, h9.1, forall2_head_class h]

theorem scanDates_cons_not_good (prev : Option Char) (pos : Nat) (c : Char) (rest : List Char)
    (h : headGoodB prev (c :: rest) = false) :
    scanDates prev pos (c :: rest) = scanDates (some c) (pos + 1) rest := by
  rcases rest with _ | ⟨x1, _ | ⟨x2, _ | ⟨x3, _ | ⟨x4, _ | ⟨x5, _ | ⟨x6, _ | ⟨x7, _ |
    ⟨x8, _ | ⟨x9, r⟩⟩⟩⟩⟩⟩⟩⟩⟩ <;>
    first
      | (rw [scanDates.eq_1, if_neg (by rw [headGoodB] at h; simp [h])])
      | (exact scanDates.eq_2 _ _ _ _ (by intro a b cc d e f g i j r hEq; cases hEq))

theorem goodTok_parts {prev : Option Char} {c0 c1 s1 c3 c4 s2 c6 c7 c8 c9 : Char}
    {rest : List Char} (h : goodTok prev c0 c1 s1 c3 c4 s2 c6 c7 c8 c9 rest = true) :
    isWordCharO prev = false ∧ c0.isDigit = true ∧ c1.isDigit = true ∧ s1 = '/' ∧
      c3.isDigit = true ∧ c4.isDigit = true ∧ s2 = '/' ∧ c6.isDigit = true ∧
      c7.isDigit = true ∧ c8.isDigit = true ∧ c9.isDigit = true ∧
      isWordCharO rest.head? = false := by
  simp only [goodTok, Bool.and_eq_true, Bool.not_eq_true', beq_iff_eq] at h
  tauto

theorem SafeB_tail10 {q4 : List Nat} {prev : Option Char}
    {c0 c1 s1 c3 c4 s2 c6 c7 c8 c9 : Char} {rest : List Char}
    (h : goodTok prev c0 c1 s1 c3 c4 s2 c6 c7 c8 c9 rest = true)
    (hb : SafeB q4 prev (c0 :: c1 :: s1 :: c3 :: c4 :: s2 :: c6 :: c7 :: c8 :: c9 :: rest)) :
    SafeB q4 (some c9) rest := by
  intro t ht hq
  refine hb ⟨t.start + 10, t.d, t.m, t.y⟩ ?_ hq
  rw [scanDates.eq_1, if_pos h]
  exact List.mem_cons_of_mem _ (mem_scan_shift 10 ht)

theorem SafeB_tail_of_step {q4 : List Nat} {p : Option Char} {c : Char} {rest : List Char}
    (hstep : scanDates p 0 (c :: rest) = scanDates (some c) 1 rest)
    (hb : SafeB q4 p (c :: rest)) : SafeB q4 (some c) rest := by
  intro t ht hq
  refine hb ⟨t.start + 1, t.d, t.m, t.y⟩ ?_ hq
  rw [hstep]
  exact mem_scan_shift 1 ht

theorem rewriteScan_classEq (q4 : List Nat) (prev : Option Char) (pos : Nat) (cs : List Char) :
    SafeB q4 prev cs → List.Forall₂ chClassEq (rewriteScan q4 prev cs) cs := by
  induction prev, pos, cs using scanDates.induct with
  | case1 prev pos c0 c1 s1 c3 c4 s2 c6 c7 c8 c9 rest h ih =>
    intro hb
    obtain ⟨hp, g0, g1, gs1, g3, g4, gs2, g6, g7, g8, g9, gr⟩ := goodTok_parts h
    have hbt : SafeB q4 (some c9) rest := SafeB_tail10 h hb
    rw [rewriteScan.eq_1, if_pos h]
    by_cases hq : qualifies q4 (10 * dv c3 + dv c4)
        (1000 * dv c6 + 100 * dv c7 + 10 * dv c8 + dv c9) = true
    · rw [if_pos hq]
      have hmem0 : (⟨0, 10 * dv c0 + dv c1, 10 * dv c3 + dv c4,
          1000 * dv c6 + 100 * dv c7 + 10 * dv c8 + dv c9⟩ : DMatch) ∈
          scanDates prev 0 (c0 :: c1 :: s1 :: c3 :: c4 :: s2 :: c6 :: c7 :: c8 :: c9 :: rest) := by
        rw [scanDates.eq_1, if_pos h]
        exact List.mem_cons_self _ _
      obtain ⟨hy1, hy2, _⟩ := hb _ hmem0 hq
      dsimp only at hy1 hy2
      have hd : 10 * dv c0 + dv c1 ≤ 99 := by
        have := dv_lt_ten g0
        have := dv_lt_ten g1
        omega
      have hm : 10 * dv c3 + dv c4 ≤ 99 := by
        have := dv_lt_ten g3
        have := dv_lt_ten g4
        omega
      rw [repTok, fmt2_pair _ hd, fmt2_pair _ hm,
        natChars_four _ (by omega) (by omega)]
      subst gs1
      subst gs2
      refine List.Forall₂.cons (chClassEq_digits (digitChar_isDigit _ (by omega)) g0) ?_
      refine List.Forall₂.cons (chClassEq_digits (digitChar_isDigit _ (by omega)) g1) ?_
      refine List.Forall₂.cons (chClassEq_self _) ?_
      refine List.Forall₂.cons (chClassEq_digits (digitChar_isDigit _ (by omega)) g3) ?_
      refine List.Forall₂.cons (chClassEq_digits (digitChar_isDigit _ (by omega)) g4) ?_
      refine List.Forall₂.cons (chClassEq_self _) ?_
      refine List.Forall₂.cons (chClassEq_digits (digitChar_isDigit _ (by omega)) g6) ?_
      refine List.Forall₂.cons (chClassEq_digits (digitChar_isDigit _ (by omega)) g7) ?_
      refine List.Forall₂.cons (chClassEq_digits (digitChar_isDigit _ (by omega)) g8) ?_
      refine List.Forall₂.cons (chClassEq_digits (digitChar_isDigit _ (by omega)) g9) ?_
      exact ih hbt
    · rw [if_neg hq]
      refine List.Forall₂.cons (chClassEq_self _) ?_
      refine List.Forall₂.cons (chClassEq_self _) ?_
      refine List.Forall₂.cons (chClassEq_self _) ?_
      refine List.Forall₂.cons (chClassEq_self _) ?_
      refine List.Forall₂.cons (chClassEq_self _) ?_
      refine List.Forall₂.cons (chClassEq_self _) ?_
      refine List.Forall₂.cons (chClassEq_self _) ?_
      refine List.Forall₂.cons (chClassEq_self _) ?_
      refine List.Forall₂.cons (chClassEq_self _) ?_
      refine List.Forall₂.cons (chClassEq_self _) ?_
      exact ih hbt
  | case2 prev pos c0 c1 s1 c3 c4 s2 c6 c7 c8 c9 rest h ih =>
    intro hb
    have hstep : scanDates prev 0 (c0 :: c1 :: s1 :: c3 :: c4 :: s2 :: c6 :: c7 :: c8 :: c9 :: rest) =
        scanDates (some c0) 1 (c1 :: s1 :: c3 :: c4 :: s2 :: c6 :: c7 :: c8 :: c9 :: rest) := by
      rw [scanDates.eq_1, if_neg h]
    rw [rewriteScan.eq_1, if_neg h]
    exact List.Forall₂.cons (chClassEq_self _) (ih (SafeB_tail_of_step hstep hb))
  | case3 prev pos c rest hne ih =>
    intro hb
    rw [rewriteScan.eq_2 _ _ _ _ hne]
    exact List.Forall₂.cons (chClassEq_self _)
      (ih (SafeB_tail_of_step (scanDates.eq_2 _ _ _ _ hne) hb))
  | case4 prev pos =>
    intro hb
    exact List.Forall₂.nil

theorem repTok_chars (d m y : Nat) (hd : d ≤ 99) (hm : m ≤ 99) (hy1 : 999 ≤ y)
    (hy2 : y ≤ 9998) :
    repTok d m y = [Nat.digitChar (d / 10), Nat.digitChar (d % 10), '/',
      Nat.digitChar (m / 10), Nat.digitChar (m % 10), '/',
      Nat.digitChar ((y + 1) / 1000), Nat.digitChar ((y + 1) / 100 % 10),
      Nat.digitChar ((y + 1) / 10 % 10), Nat.digitChar ((y + 1) % 10)] := by
  rw [repTok, fmt2_pair _ hd, fmt2_pair _ hm, natChars_four _ (by omega) (by omega)]
  rfl

/-- After one pass of the rewrite, no date match of the result has a year in
`q4` together with a month field of 1 to 3, provided the pass satisfied the
`SafeB` side condition.  This is the heart of the idempotence argument. -/
theorem scan_rewriteScan_not_qual (q4 : List Nat) (p2 : Option Char) (pos0 : Nat)
    (cs : List Char) :
    ∀ (p1 : Option Char) (pos : Nat), isWordCharO p1 = isWordCharO p2 →
      SafeB q4 p2 cs →
      ∀ u ∈ scanDates p1 pos (rewriteScan q4 p2 cs), qualifies q4 u.m u.y = false := by
  induction p2, pos0, cs using scanDates.induct with
  | case1 p2 pos0 c0 c1 s1 c3 c4 s2 c6 c7 c8 c9 rest h ih =>
    intro p1 pos hcls hb u hu
    obtain ⟨hp, g0, g1, gs1, g3, g4, gs2, g6, g7, g8, g9, gr⟩ := goodTok_parts h
    have hbt : SafeB q4 (some c9) rest := SafeB_tail10 h hb
    have hshape : List.Forall₂ chClassEq (rewriteScan q4 (some c9) rest) rest :=
      rewriteScan_classEq q4 (some c9) 0 rest hbt
    have hw1 : isWordCharO p1 = false := hcls.trans hp
    have hw2 : isWordCharO (rewriteScan q4 (some c9) rest).head? = false :=
      (forall2_head_class hshape).trans gr
    rw [rewriteScan.eq_1, if_pos h] at hu
    by_cases hq : qualifies q4 (10 * dv c3 + dv c4)
        (1000 * dv c6 + 100 * dv c7 + 10 * dv c8 + dv c9) = true
    · rw [if_pos hq] at hu
      have hmem0 : (⟨0, 10 * dv c0 + dv c1, 10 * dv c3 + dv c4,
          1000 * dv c6 + 100 * dv c7 + 10 * dv c8 + dv c9⟩ : DMatch) ∈
          scanDates p2 0 (c0 :: c1 :: s1 :: c3 :: c4 :: s2 :: c6 :: c7 :: c8 :: c9 :: rest) := by
        rw [scanDates.eq_1, if_pos h]
        exact List.mem_cons_self _ _
      obtain ⟨hy1, hy2, hcont⟩ := hb _ hmem0 hq
      dsimp only at hy1 hy2 hcont
      have hd : 10 * dv c0 + dv c1 ≤ 99 := by
        have := dv_lt_ten g0
        have := dv_lt_ten g1
        omega
      have hm : 10 * dv c3 + dv c4 ≤ 99 := by
        have := dv_lt_ten g3
        have := dv_lt_ten g4
        omega
      rw [repTok_chars _ _ _ hd hm hy1 hy2] at hu
      simp only [List.cons_append, List.nil_append] at hu
      have i0 : (Nat.digitChar ((10 * dv c0 + dv c1) / 10)).isDigit = true :=
        digitChar_isDigit _ (by omega)
      have i1 : (Nat.digitChar ((10 * dv c0 + dv c1) % 10)).isDigit = true :=
        digitChar_isDigit _ (by omega)
      have i3 : (Nat.digitChar ((10 * dv c3 + dv c4) / 10)).isDigit = true :=
        digitChar_isDigit _ (by omega)
      have i4 : (Nat.digitChar ((10 * dv c3 + dv c4) % 10)).isDigit = true :=
        digitChar_isDigit _ (by omega)
      have i6 : (Nat.digitChar ((1000 * dv c6 + 100 * dv c7 + 10 * dv c8 + dv c9 + 1) /
          1000)).isDigit = true := digitChar_isDigit _ (by omega)
      have i7 : (Nat.digitChar ((1000 * dv c6 + 100 * dv c7 + 10 * dv c8 + dv c9 + 1) /
          100 % 10)).isDigit = true := digitChar_isDigit _ (by omega)
      have i8 : (Nat.digitChar ((1000 * dv c6 + 100 * dv c7 + 10 * dv c8 + dv c9 + 1) /
          10 % 10)).isDigit = true := digitChar_isDigit _ (by omega)
      have i9 : (Nat.digitChar ((1000 * dv c6 + 100 * dv c7 + 10 * dv c8 + dv c9 + 1) %
          10)).isDigit = true := digitChar_isDigit _ (by omega)
      have hgt : goodTok p1 (Nat.digitChar ((10 * dv c0 + dv c1) / 10))
          (Nat.digitChar ((10 * dv c0 + dv c1) % 10)) '/'
          (Nat.digitChar ((10 * dv c3 + dv c4) / 10))
          (Nat.digitChar ((10 * dv c3 + dv c4) % 10)) '/'
          (Nat.digitChar ((1000 * dv c6 + 100 * dv c7 + 10 * dv c8 + dv c9 + 1) / 1000))
          (Nat.digitChar ((1000 * dv c6 + 100 * dv c7 + 10 * dv c8 + dv c9 + 1) / 100 % 10))
          (Nat.digitChar ((1000 * dv c6 + 100 * dv c7 + 10 * dv c8 + dv c9 + 1) / 10 % 10))
          (Nat.digitChar ((1000 * dv c6 + 100 * dv c7 + 10 * dv c8 + dv c9 + 1) % 10))
          (rewriteScan q4 (some c9) rest) = true := by
        simp [goodTok, i0, i1, i3, i4, i6, i7, i8, i9, hw1, hw2]
      rw [scanDates.eq_1, if_pos hgt] at hu
      rcases List.mem_cons.mp hu with hu0 | hutl
      · subst hu0
        have ey : 1000 * dv (Nat.digitChar ((1000 * dv c6 + 100 * dv c7 + 10 * dv c8 +
            dv c9 + 1) / 1000)) + 100 * dv (Nat.digitChar ((1000 * dv c6 + 100 * dv c7 +
            10 * dv c8 + dv c9 + 1) / 100 % 10)) + 10 * dv (Nat.digitChar ((1000 * dv c6 +
            100 * dv c7 + 10 * dv c8 + dv c9 + 1) / 10 % 10)) + dv (Nat.digitChar
            ((1000 * dv c6 + 100 * dv c7 + 10 * dv c8 + dv c9 + 1) % 10)) =
            1000 * dv c6 + 100 * dv c7 + 10 * dv c8 + dv c9 + 1 := by
          rw [dv_digitChar _ (by omega), dv_digitChar _ (by omega),
            dv_digitChar _ (by omega), dv_digitChar _ (by omega)]
          omega
        dsimp only
        unfold qualifies
        rw [ey, hcont, Bool.false_and, Bool.false_and]
      · have hcls9 : isWordCharO (some (Nat.digitChar ((1000 * dv c6 + 100 * dv c7 +
            10 * dv c8 + dv c9 + 1) % 10))) = isWordCharO (some c9) := by
          show isWordChar _ = isWordChar c9
          rw [isDigit_isWordChar i9, isDigit_isWordChar g9]
        exact ih _ _ hcls9 hbt u hutl
    · rw [if_neg hq] at hu
      simp only [List.cons_append, List.nil_append] at hu
      have hgt : goodTok p1 c0 c1 s1 c3 c4 s2 c6 c7 c8 c9
          (rewriteScan q4 (some c9) rest) = true := by
        simp [goodTok, g0, g1, g3, g4, g6, g7, g8, g9, gs1, gs2, hw1, hw2]
      rw [scanDates.eq_1, if_pos hgt] at hu
      rcases List.mem_cons.mp hu with hu0 | hutl
      · subst hu0
        dsimp only
        exact Bool.eq_false_iff.mpr hq
      · exact ih _ _ rfl hbt u hutl
  | case2 p2 pos0 c0 c1 s1 c3 c4 s2 c6 c7 c8 c9 rest h ih =>
    intro p1 pos hcls hb u hu
    have hstep : scanDates p2 0 (c0 :: c1 :: s1 :: c3 :: c4 :: s2 :: c6 :: c7 :: c8 :: c9 ::
        rest) = scanDates (some c0) 1 (c1 :: s1 :: c3 :: c4 :: s2 :: c6 :: c7 :: c8 :: c9 ::
        rest) := by
      rw [scanDates.eq_1, if_neg h]
    have hbt : SafeB q4 (some c0) (c1 :: s1 :: c3 :: c4 :: s2 :: c6 :: c7 :: c8 :: c9 ::
        rest) := SafeB_tail_of_step hstep hb
    have hshape : List.Forall₂ chClassEq
        (c0 :: rewriteScan q4 (some c0) (c1 :: s1 :: c3 :: c4 :: s2 :: c6 :: c7 :: c8 :: c9 ::
          rest))
        (c0 :: c1 :: s1 :: c3 :: c4 :: s2 :: c6 :: c7 :: c8 :: c9 :: rest) :=
      List.Forall₂.cons (chClassEq_self c0) (rewriteScan_classEq q4 (some c0) 0 _ hbt)
    have hhg : headGoodB p1 (c0 :: rewriteScan q4 (some c0)
        (c1 :: s1 :: c3 :: c4 :: s2 :: c6 :: c7 :: c8 :: c9 :: rest)) = false := by
      rw [headGoodB_shape hcls hshape]
      rw [headGoodB]
      exact Bool.eq_false_iff.mpr h
    rw [rewriteScan.eq_1, if_neg h] at hu
    rw [scanDates_cons_not_good _ _ _ _ hhg] at hu
    exact ih _ _ rfl hbt u hu
  | case3 p2 pos0 c rest hne ih =>
    intro p1 pos hcls hb u hu
    have hbt : SafeB q4 (some c) rest :=
      SafeB_tail_of_step (scanDates.eq_2 _ _ _ _ hne) hb
    have hshape : List.Forall₂ chClassEq (c :: rewriteScan q4 (some c) rest) (c :: rest) :=
      List.Forall₂.cons (chClassEq_self c) (rewriteScan_classEq q4 (some c) 0 rest hbt)
    have hsh : headGoodB p2 (c :: rest) = false := by
      rcases rest with _ | ⟨x1, _ | ⟨x2, _ | ⟨x3, _ | ⟨x4, _ | ⟨x5, _ | ⟨x6, _ | ⟨x7, _ |
        ⟨x8, _ | ⟨x9, r⟩⟩⟩⟩⟩⟩⟩⟩⟩ <;>
        first
          | rfl
          | (exact absurd rfl (hne _ _ _ _ _ _ _ _ _ _))
    have hhg : headGoodB p1 (c :: rewriteScan q4 (some c) rest) = false :=
      (headGoodB_shape hcls hshape).trans hsh
    rw [rewriteScan.eq_2 _ _ _ _ hne] at hu
    rw [scanDates_cons_not_good _ _ _ _ hhg] at hu
    exact ih _ _ rfl hbt u hu
  | case4 p2 pos0 =>
    intro p1 pos hcls hb u hu
    simp [rewriteScan, scanDates] at hu

theorem foldr_spliceStep_no_op (q4 : List Nat) (ms : List DMatch) (s : List Char)
    (h : ∀ t ∈ ms, qualifies q4 t.m t.y = false) :
    ms.foldr (fun t acc => spliceStep q4 acc t) s = s := by
  induction ms with
  | nil => rfl
  | cons t ms ih =>
    rw [List.foldr_cons, ih fun x hx => h x (List.mem_cons_of_mem _ hx)]
    unfold spliceStep
    rw [h t (List.mem_cons_self _ _)]
    rfl

theorem ajustar_of_no_qual (ins out : List Char)
    (hnq : ∀ u ∈ scanDates none 0 out, qualifies (anos_q4_de ins) u.m u.y = false) :
    ajustar ins out = out := by
  unfold ajustar
  by_cases h0 : out = []
  · rw [if_pos h0]
  · rw [if_neg h0]
    by_cases h1 : anos_meses_de ins = []
    · rw [if_pos h1]
    · rw [if_neg h1]
      by_cases h2 : scanDates none 0 out = []
      · rw [if_pos h2]
      · rw [if_neg h2, List.foldl_reverse]
        exact foldr_spliceStep_no_op (anos_q4_de ins) (scanDates none 0 out) out hnq

theorem ajustar_idem_of_safe (ins prova : List Char)
    (hb : SafeB (anos_q4_de ins) none prova) :
    ajustar ins (ajustar ins prova) = ajustar ins prova := by
  apply ajustar_of_no_qual
  intro u hu
  rw [ajustar_eq_rewriteScan] at hu
  exact scan_rewriteScan_not_qual (anos_q4_de ins) none 0 prova none 0 rfl hb u hu

/-- C1 (corrected): for every registration and exam text, the corrector
performs exactly the single-pass rewrite: each `dd/mm/yyyy` match of the exam
text whose year equals the year of some registration date whose two-digit
month field is at least 10 (not only October to December: months 13 to 99
also count, which is where the claim as stated fails) and whose own month
field is 1 to 3 has its year rewritten to `Y+1`, with its day and month
unchanged and all text outside the rewritten tokens untouched; and in
particular the registration text `Inscrições: 01/11/2024 a 15/12/2024` with
exam text `Prova: 10/02/2024` yields `Prova: 10/02/2025`. -/
theorem c1_year_rollover :
    (∀ inscricoes prova : List Char,
        ajustar inscricoes prova = rewriteScan (anos_q4_de inscricoes) none prova) ∧
      ajustarS "Inscrições: 01/11/2024 a 15/12/2024" "Prova: 10/02/2024" =
        "Prova: 10/02/2025" :=
  ⟨ajustar_eq_rewriteScan, by decide⟩

/-- C1 as stated is false: with registration text `01/13/2024` (month field
13, which is not October to December) and exam text `Prova: 10/02/2024`, the
code rewrites the exam year to 2025, while the claim's rule (a Q4 year needs
a registration month of October to December) demands the text be left
untouched. -/
theorem c1_as_stated_counterexample :
    ajustarS "01/13/2024" "Prova: 10/02/2024" = "Prova: 10/02/2025" ∧
      rewriteScan (anos_q4_claim ("01/13/2024" : String).data) none
          ("Prova: 10/02/2024" : String).data = ("Prova: 10/02/2024" : String).data ∧
      ajustar ("01/13/2024" : String).data ("Prova: 10/02/2024" : String).data ≠
        rewriteScan (anos_q4_claim ("01/13/2024" : String).data) none
          ("Prova: 10/02/2024" : String).data := by
  refine ⟨by decide, by decide, by decide⟩

/-- C9 (corrected): reapplying the corrector to already-corrected text
performs no further change, provided every match that was rewritten had a
year `Y` with `999 ≤ Y ≤ 9998` (so that `Y+1` is still written with four
digits) whose increment `Y+1` is not itself a Q4 year of the registration
text.  The extra digit-stability condition is what the counterexample
forces: without it a shortened year can splice adjacent text into a fresh
date match. -/
theorem c9_idempotent_under_safe_years (inscricoes prova : String)
    (hb : SafeB (anos_q4_de inscricoes.data) none prova.data) :
    ajustarS inscricoes (ajustarS inscricoes prova) = ajustarS inscricoes prova := by
  show (⟨ajustar inscricoes.data (ajustar inscricoes.data prova.data)⟩ : String) = _
  rw [ajustar_idem_of_safe inscricoes.data prova.data hb]
  rfl

theorem c9_witness :
    SafeB (anos_q4_de ("Inscrições: 01/11/2024 a 15/12/2024" : String).data) none
        ("Prova: 10/02/2024" : String).data ∧
      ajustarS "Inscrições: 01/11/2024 a 15/12/2024"
          (ajustarS "Inscrições: 01/11/2024 a 15/12/2024" "Prova: 10/02/2024") =
        ajustarS "Inscrições: 01/11/2024 a 15/12/2024" "Prova: 10/02/2024" :=
  ⟨by decide, c9_idempotent_under_safe_years _ _ (by decide)⟩

/-- C9 as stated is false: with registration text `01/11/0098 05/12/2024`
(Q4 years 98 and 2024) and exam text `01/02/0098/02/2024`, the rewritten
year 99 is not a Q4 year — the claim's only proviso holds — yet the first
pass produces `01/02/99/02/2024`, in which the scanner now finds the fresh
match `99/02/2024`, so a second pass rewrites it again to `01/02/99/02/2025`. -/
theorem c9_as_stated_counterexample :
    (∀ t ∈ scanDates none 0 ("01/02/0098/02/2024" : String).data,
        qualifies (anos_q4_de ("01/11/0098 05/12/2024" : String).data) t.m t.y = true →
          (anos_q4_de ("01/11/0098 05/12/2024" : String).data).contains (t.y + 1) = false) ∧
      ajustarS "01/11/0098 05/12/2024" "01/02/0098/02/2024" = "01/02/99/02/2024" ∧
      ajustarS "01/11/0098 05/12/2024"
          (ajustarS "01/11/0098 05/12/2024" "01/02/0098/02/2024") ≠
        ajustarS "01/11/0098 05/12/2024" "01/02/0098/02/2024" := by
  refine ⟨by decide, by decide, by decide⟩

theorem dedupGo_sublist (seen : List (String × String × String × String)) (rows : List Rec) :
    (dedupGo seen rows).Sublist rows := by
  induction rows generalizing seen with
  | nil => exact List.Sublist.refl []
  | cons r rs ih =>
    rw [dedupGo]
    by_cases h : key_of r ∈ seen
    · rw [if_pos h]
      exact (ih seen).cons r
    · rw [if_neg h]
      exact (ih _).cons₂ r

theorem dedupGo_not_seen (seen : List (String × String × String × String)) (rows : List Rec) :
    ∀ r ∈ dedupGo seen rows, key_of r ∉ seen := by
  induction rows generalizing seen with
  | nil => intro r hr; cases hr
  | cons x rs ih =>
    intro r hr
    rw [dedupGo] at hr
    by_cases h : key_of x ∈ seen
    · rw [if_pos h] at hr
      exact ih seen r hr
    · rw [if_neg h] at hr
      rcases List.mem_cons.mp hr with h0 | h1
      · subst h0
        exact h
      · intro hmem
        exact ih _ r h1 (List.mem_cons_of_mem _ hmem)

theorem dedupGo_pairwise (seen : List (String × String × String × String)) (rows : List Rec) :
    (dedupGo seen rows).Pairwise fun a b => key_of a ≠ key_of b := by
  induction rows generalizing seen with
  | nil => exact List.Pairwise.nil
  | cons x rs ih =>
    rw [dedupGo]
    by_cases h : key_of x ∈ seen
    · rw [if_pos h]
      exact ih seen
    · rw [if_neg h]
      refine List.Pairwise.cons ?_ (ih _)
      intro b hb heq
      exact dedupGo_not_seen _ _ b hb (heq ▸ List.mem_cons_self _ _)

theorem dedupGo_first_occurrence (seen : List (String × String × String × String)) :
    ∀ (pre : List Rec) (r : Rec) (post : List Rec),
      key_of r ∉ seen → (∀ x ∈ pre, key_of x ≠ key_of r) →
      r ∈ dedupGo seen (pre ++ r :: post) := by
  intro pre
  induction pre generalizing seen with
  | nil =>
    intro r post hseen _
    rw [List.nil_append, dedupGo, if_neg hseen]
    exact List.mem_cons_self _ _
  | cons p pre ih =>
    intro r post hseen hpre
    rw [List.cons_append, dedupGo]
    by_cases h : key_of p ∈ seen
    · rw [if_pos h]
      exact ih seen r post hseen fun x hx => hpre x (List.mem_cons_of_mem _ hx)
    · rw [if_neg h]
      refine List.mem_cons_of_mem _ (ih _ r post ?_ fun x hx => hpre x (List.mem_cons_of_mem _ hx))
      intro hmem
      rcases List.mem_cons.mp hmem with h0 | h1
      · exact hpre p (List.mem_cons_self _ _) h0.symm
      · exact hseen h1

theorem mem_insortRec (x : Rec) (l : List Rec) :
    ∀ z, z ∈ insortRec x l ↔ z = x ∨ z ∈ l := by
  induction l with
  | nil => simp [insortRec]
  | cons y ys ih =>
    intro z
    rw [insortRec]
    by_cases h : sortKeyRec y < sortKeyRec x
    · rw [if_pos h]
      simp only [List.mem_cons, ih]
      try tauto
    · rw [if_neg h]
      simp only [List.mem_cons]
      try tauto

theorem mem_sortRecs (l : List Rec) : ∀ z, z ∈ sortRecs l ↔ z ∈ l := by
  induction l with
  | nil => simp [sortRecs]
  | cons x xs ih =>
    intro z
    rw [sortRecs, mem_insortRec]
    simp only [List.mem_cons, ih]

theorem insortRec_pairwise (x : Rec) (l : List Rec)
    (h : l.Pairwise fun a b => sortKeyRec a ≤ sortKeyRec b) :
    (insortRec x l).Pairwise fun a b => sortKeyRec a ≤ sortKeyRec b := by
  induction l with
  | nil => simp [insortRec]
  | cons y ys ih =>
    rw [insortRec]
    rcases List.pairwise_cons.mp h with ⟨hy, hys⟩
    by_cases hlt : sortKeyRec y < sortKeyRec x
    · rw [if_pos hlt]
      refine List.pairwise_cons.mpr ⟨?_, ih hys⟩
      intro z hz
      rcases (mem_insortRec x ys z).mp hz with h0 | h1
      · subst h0
        omega
      · exact hy z h1
    · rw [if_neg hlt]
      refine List.pairwise_cons.mpr ⟨?_, h⟩
      intro z hz
      rcases List.mem_cons.mp hz with h0 | h1
      · subst h0
        omega
      · have := hy z h1
        omega

theorem sortRecs_pairwise (l : List Rec) :
    (sortRecs l).Pairwise fun a b => sortKeyRec a ≤ sortKeyRec b := by
  induction l with
  | nil => exact List.Pairwise.nil
  | cons x xs ih => exact insortRec_pairwise x (sortRecs xs) ih

theorem insortRec_filter_key (x : Rec) (l : List Rec) (k : Nat) :
    (insortRec x l).filter (fun r => sortKeyRec r == k) =
      (if sortKeyRec x == k then x :: l.filter (fun r => sortKeyRec r == k)
       else l.filter (fun r => sortKeyRec r == k)) := by
  induction l with
  | nil =>
    rw [insortRec]
    by_cases hx : (sortKeyRec x == k) = true <;> simp [hx, List.filter]
  | cons y ys ih =>
    rw [insortRec]
    by_cases hlt : sortKeyRec y < sortKeyRec x
    · rw [if_pos hlt]
      by_cases hx : (sortKeyRec x == k) = true
      · have hxk : sortKeyRec x = k := beq_iff_eq.mp hx
        have hy : (sortKeyRec y == k) = false := beq_eq_false_iff_ne.mpr (by omega)
        simp [List.filter_cons, hy, hx, ih]
      · have hxf : (sortKeyRec x == k) = false := Bool.eq_false_iff.mpr hx
        simp [List.filter_cons, hxf, ih]
    · rw [if_neg hlt]
      by_cases hx : (sortKeyRec x == k) = true <;> simp [List.filter_cons, hx]

theorem sortRecs_filter_key (l : List Rec) (k : Nat) :
    (sortRecs l).filter (fun r => sortKeyRec r == k) =
      l.filter (fun r => sortKeyRec r == k) := by
  induction l with
  | nil => rfl
  | cons x xs ih =>
    rw [sortRecs, insortRec_filter_key, List.filter_cons]
    by_cases hx : (sortKeyRec x == k) = true <;> simp [hx, ih]

theorem daysInMonth_le (y m : Nat) : daysInMonth y m ≤ 31 := by
  unfold daysInMonth
  split
  · split <;> omega
  · split <;> omega

theorem sortKeyRec_lt_sentinel {r : Rec} (h : parse_date_br_first r.prova.data ≠ none) :
    sortKeyRec r < 100000000 := by
  rcases hp : parse_date_br_first r.prova.data with _ | ⟨y, m, d⟩
  · exact absurd hp h
  · have hkey : sortKeyRec r = y * 10000 + m * 100 + d := by
      unfold sortKeyRec
      rw [hp]
    have hvalid : validDate y m d = true := by
      unfold parse_date_br_first at hp
      rcases hscan : scanDates none 0 r.prova.data with _ | ⟨t, ts⟩
      · rw [hscan] at hp
        cases hp
      · rw [hscan] at hp
        dsimp only at hp
        by_cases hv : validDate t.y t.m t.d = true
        · rw [if_pos hv] at hp
          injection hp with a
          simp only [Prod.mk.injEq] at a
          obtain ⟨e1, e2, e3⟩ := a
          rw [← e1, ← e2, ← e3]
          exact hv
        · rw [if_neg hv] at hp
          cases hp
    rw [hkey]
    simp only [validDate, Bool.and_eq_true, decide_eq_true_eq] at hvalid
    obtain ⟨⟨⟨⟨⟨_, hy⟩, _⟩, hm⟩, _⟩, hd⟩ := hvalid
    have := daysInMonth_le y m
    omega

theorem sortKeyRec_sentinel {r : Rec} (h : parse_date_br_first r.prova.data = none) :
    sortKeyRec r = 100000000 := by
  unfold sortKeyRec
  rw [h]

/-- C3 (confirmed): after the single left-to-right dedup scan, no two kept
records share a composite key, the kept records appear in their input
relative order (the output is a sublist of the input), and every first
occurrence of a key — a record none of whose predecessors shares its key —
is kept, so the record emitted for each key present in the output is the
first record with that key in input order. -/
theorem c3_dedup_first_occurrence (rows : List Rec) :
    (dedupRecs rows).Pairwise (fun a b => key_of a ≠ key_of b) ∧
      (dedupRecs rows).Sublist rows ∧
      ∀ (pre : List Rec) (r : Rec) (post : List Rec),
        rows = pre ++ r :: post → (∀ x ∈ pre, key_of x ≠ key_of r) →
          r ∈ dedupRecs rows := by
  refine ⟨dedupGo_pairwise [] rows, dedupGo_sublist [] rows, ?_⟩
  intro pre r post hsplit hpre
  rw [hsplit]
  exact dedupGo_first_occurrence [] pre r post (by simp) hpre

theorem c3_witness :
    (dedupRecs [mkRec "SP" "USP" "a" "01/03/2025", mkRec "sp " "usp" "a" "01/03/2025 ",
        mkRec "RJ" "UERJ" "b" "02/03/2025"]).Pairwise (fun a b => key_of a ≠ key_of b) ∧
      (dedupRecs [mkRec "SP" "USP" "a" "01/03/2025", mkRec "sp " "usp" "a" "01/03/2025 ",
        mkRec "RJ" "UERJ" "b" "02/03/2025"]).Sublist
        [mkRec "SP" "USP" "a" "01/03/2025", mkRec "sp " "usp" "a" "01/03/2025 ",
          mkRec "RJ" "UERJ" "b" "02/03/2025"] ∧
      mkRec "SP" "USP" "a" "01/03/2025" ∈
        dedupRecs [mkRec "SP" "USP" "a" "01/03/2025", mkRec "sp " "usp" "a" "01/03/2025 ",
          mkRec "RJ" "UERJ" "b" "02/03/2025"] := by
  refine ⟨(c3_dedup_first_occurrence _).1, (c3_dedup_first_occurrence _).2.1, ?_⟩
  exact (c3_dedup_first_occurrence _).2.2 [] (mkRec "SP" "USP" "a" "01/03/2025")
    [mkRec "sp " "usp" "a" "01/03/2025 ", mkRec "RJ" "UERJ" "b" "02/03/2025"] rfl
    (by intro x hx; cases hx)

/-- C4 (confirmed): the sorted output is non-decreasing in the sort key (the
first `dd/mm/yyyy` date of the exam text, with records lacking a parseable
first date keyed strictly above every dated record); once an undated record
appears, every later record is undated too, so undated records come after
all dated ones; and for every key value the records carrying it appear in
exactly their pre-sort relative order (stability), which also makes the
output a permutation of the input. -/
theorem c4_sort_stable (l : List Rec) :
    (sortRecs l).Pairwise (fun a b => sortKeyRec a ≤ sortKeyRec b) ∧
      (sortRecs l).Pairwise (fun a b => parse_date_br_first a.prova.data = none →
        parse_date_br_first b.prova.data = none) ∧
      ∀ k : Nat, (sortRecs l).filter (fun r => sortKeyRec r == k) =
        l.filter (fun r => sortKeyRec r == k) := by
  refine ⟨sortRecs_pairwise l, ?_, fun k => sortRecs_filter_key l k⟩
  refine (sortRecs_pairwise l).imp ?_
  intro a b hab ha
  by_contra hb
  have h1 : sortKeyRec a = 100000000 := sortKeyRec_sentinel ha
  have h2 : sortKeyRec b < 100000000 := sortKeyRec_lt_sentinel hb
  omega

theorem c4_witness :
    (sortRecs [mkRec "SP" "USP" "a" "sem data", mkRec "RJ" "UERJ" "b" "02/03/2025",
        mkRec "MG" "UFMG" "c" "01/03/2025"]).Pairwise
        (fun a b => sortKeyRec a ≤ sortKeyRec b) ∧
      sortRecs [mkRec "SP" "USP" "a" "sem data", mkRec "RJ" "UERJ" "b" "02/03/2025",
          mkRec "MG" "UFMG" "c" "01/03/2025"] =
        [mkRec "MG" "UFMG" "c" "01/03/2025", mkRec "RJ" "UERJ" "b" "02/03/2025",
          mkRec "SP" "USP" "a" "sem data"] :=
  ⟨(c4_sort_stable _).1, by decide⟩

theorem enrich_sentinel (r : Rec) (d : Option Detail) :
    ((enrich r d).gabarito = "-" ∨ has_dateS (enrich r d).gabarito = true) ∧
      ((enrich r d).resultado = "-" ∨ has_dateS (enrich r d).resultado = true) := by
  unfold enrich
  by_cases h0 : falsyOS r.editalUrl = true
  · rw [if_pos h0]
    exact ⟨Or.inl rfl, Or.inl rfl⟩
  · rw [if_neg h0]
    rcases d with _ | dt
    · exact ⟨Or.inl rfl, Or.inl rfl⟩
    · dsimp only
      constructor
      · rcases dt.gabarito_preliminar with _ | g
        · exact Or.inl rfl
        · dsimp only
          by_cases hg : has_dateS g = true
          · rw [if_pos hg]
            exact Or.inr hg
          · rw [if_neg hg]
            exact Or.inl rfl
      · rcases dt.resultado_final with _ | v
        · exact Or.inl rfl
        · dsimp only
          by_cases hv : has_dateS v = true
          · rw [if_pos hv]
            exact Or.inr hv
          · rw [if_neg hv]
            exact Or.inl rfl

/-- C5 (confirmed): every record that survives to persistence has its
answer-key field and its final-result field equal to the sentinel `-` or to
a string in which `DATE_RE` finds a date; a detail value without a
recognizable date is replaced by the sentinel, never kept verbatim. -/
theorem c5_sentinel_invariant (input : List (Rec × Option Detail)) :
    ∀ r ∈ pipeline input,
      (r.gabarito = "-" ∨ has_dateS r.gabarito = true) ∧
        (r.resultado = "-" ∨ has_dateS r.resultado = true) := by
  intro r hr
  rw [pipeline] at hr
  have h1 : r ∈ dedupRecs (input.map fun p => correctStep (enrich p.1 p.2)) :=
    (mem_sortRecs _ r).mp hr
  have h2 : r ∈ input.map fun p => correctStep (enrich p.1 p.2) :=
    (dedupGo_sublist [] _).subset h1
  obtain ⟨p, _, hp⟩ := List.mem_map.mp h2
  have := enrich_sentinel p.1 p.2
  rw [← hp]
  exact this

/-- C5 witness: a detail page answering `em breve` (no date) for the answer
key leaves the persisted record with the sentinel, and a row whose detail
resolution failed gets sentinels in both fields. -/
theorem c5_witness :
    (∀ r ∈ pipeline [(mkRec "SP" "USP" "01/11/2024 a 15/12/2024" "10/02/2025",
        some ⟨none, some "em breve", none⟩)],
      (r.gabarito = "-" ∨ has_dateS r.gabarito = true) ∧
        (r.resultado = "-" ∨ has_dateS r.resultado = true)) ∧
      (pipeline [({ mkRec "SP" "USP" "01/11/2024 a 15/12/2024" "10/02/2025" with
          editalUrl := some "https://x/e" }, some ⟨none, some "em breve", none⟩)]).map
        (fun r => r.gabarito) = ["-"] :=
  ⟨c5_sentinel_invariant _, by decide⟩

theorem pickGo_all_eq (a : Nat × HTable × List String) :
    ∀ cs, (∀ x ∈ cs, x = a) → pickGo a cs = (a.2.1, a.2.2) := by
  intro cs
  induction cs with
  | nil => intro _; rfl
  | cons c cs ih =>
    intro h
    rw [pickGo]
    rw [h c (List.mem_cons_self _ _)]
    rw [if_neg (lt_irrefl a.1)]
    exact ih fun x hx => h x (List.mem_cons_of_mem _ hx)

theorem pickBest_all_eq (a : Nat × HTable × List String) (l : List (Nat × HTable × List String))
    (hne : l ≠ []) (h : ∀ x ∈ l, x = a) : pickBest l = some (a.2.1, a.2.2) := by
  rcases l with _ | ⟨c, cs⟩
  · exact absurd rfl hne
  · rw [pickBest]
    rw [h c (List.mem_cons_self _ _)]
    rw [pickGo_all_eq a cs fun x hx => h x (List.mem_cons_of_mem _ hx)]

/-- C2 (corrected): the locator considers every table element; a candidate is
eligible when it has a `tbody` element and its normalized header labels map
to at least 3 distinct canonical fields among region, institution,
registration and exam; among eligible candidates the highest count wins with
ties broken by encounter order; consequently, when exactly one table of the
page is eligible, that table is selected together with its header labels,
regardless of its position. -/
theorem c2_unique_eligible_selected (tables : List HTable) (tb : HTable)
    (hmem : tb ∈ tables) (htb : tb.tbody.isSome = true) (hsc : 3 ≤ scoreOf tb)
    (huniq : ∀ tb2 ∈ tables, tb2.tbody.isSome = true → 3 ≤ scoreOf tb2 → tb2 = tb) :
    find_calendar_table tables = some (tb, headersOf tb) := by
  unfold find_calendar_table
  have hall : ∀ x ∈ tables.filterMap fun t =>
      if t.tbody.isSome then
        (if 3 ≤ scoreOf t then some (scoreOf t, t, headersOf t) else none)
      else none, x = (scoreOf tb, tb, headersOf tb) := by
    intro x hx
    obtain ⟨t2, ht2, hc⟩ := List.mem_filterMap.mp hx
    by_cases hb : t2.tbody.isSome = true
    · rw [if_pos hb] at hc
      by_cases hs : 3 ≤ scoreOf t2
      · rw [if_pos hs] at hc
        injection hc with hc
        have := huniq t2 ht2 hb hs
        subst this
        exact hc.symm
      · rw [if_neg hs] at hc
        cases hc
    · rw [if_neg hb] at hc
      cases hc
  have hin : (scoreOf tb, tb, headersOf tb) ∈ tables.filterMap fun t =>
      if t.tbody.isSome then
        (if 3 ≤ scoreOf t then some (scoreOf t, t, headersOf t) else none)
      else none := by
    refine List.mem_filterMap.mpr ⟨tb, hmem, ?_⟩
    rw [if_pos htb, if_pos hsc]
  exact pickBest_all_eq (scoreOf tb, tb, headersOf tb) _
    (fun he => by rw [he] at hin; cases hin) hall

/-- C2 as stated is false: a page whose only table matches three of the four
canonical fields is reported as not found when the table has no `tbody`,
because the locator skips any table without one before scoring it. -/
theorem c2_as_stated_counterexample :
    3 ≤ scoreOf tableNoBody ∧ find_calendar_table [tableNoBody] = none := by
  refine ⟨by decide, by decide⟩

theorem c2_witness :
    find_calendar_table [tableJunk, tableGood, tableNoBody] =
      some (tableGood, headersOf tableGood) :=
  c2_unique_eligible_selected [tableJunk, tableGood, tableNoBody] tableGood
    (by decide) (by decide) (by decide) (by decide)

/-- C8 (corrected): every emitted record has a non-empty region and a
non-empty institution; a row whose resolved region text is empty, or whose
resolved institution text — the institution column's cell text, falling
back to the second cell's raw text when that is empty — is empty, never
produces a record.  (A row whose institution-column cell is empty can still
produce a record through the second-cell fallback, which is where the claim
as stated fails.) -/
theorem c8_emitted_nonempty :
    (∀ (tb : HTable) (headers : List String) (r : Rec),
        r ∈ parse_main_table tb headers → r.uf ≠ "" ∧ r.instituicao ≠ "") ∧
      ∀ (m : List (String × Nat)) (tr : HRow),
        ufOf m tr = "" ∨ selOf m tr = "" → rowRecord m tr = none := by
  constructor
  · intro tb headers r hr
    obtain ⟨tr, _, htr⟩ := List.mem_filterMap.mp hr
    unfold rowRecord at htr
    by_cases h3 : tr.cells.length < 3
    · rw [if_pos h3] at htr
      cases htr
    · rw [if_neg h3] at htr
      by_cases he : (ufOf (header_map headers) tr == "" ||
          selOf (header_map headers) tr == "") = true
      · rw [if_pos he] at htr
        cases htr
      · rw [if_neg he] at htr
        injection htr with htr
        rw [Bool.or_eq_true] at he
        push_neg at he
        obtain ⟨h1, h2⟩ := he
        rw [← htr]
        exact ⟨by simpa using h1, by simpa using h2⟩
  · intro m tr h
    unfold rowRecord
    by_cases h3 : tr.cells.length < 3
    · rw [if_pos h3]
    · rw [if_neg h3]
      have : (ufOf m tr == "" || selOf m tr == "") = true := by
        rcases h with h | h
        · rw [h]
          simp
        · rw [h]
          simp
      rw [if_pos this]

/-- C8 as stated is false: in this located table the institution column
resolves to index 2 and the body row's institution cell is empty, yet the
row produces a record, with the institution text taken from the second cell
(`Reserva`). -/
theorem c8_as_stated_counterexample :
    find_calendar_table [tableEmptyInstCell] =
        some (tableEmptyInstCell, headersOf tableEmptyInstCell) ∧
      (header_map (headersOf tableEmptyInstCell)).lookup "selecao" = some 2 ∧
      ((allRows tableEmptyInstCell).get? 1).map
          (fun r => (r.cells.get? 2).map fun c => c.text) = some (some "") ∧
      (parse_main_table tableEmptyInstCell (headersOf tableEmptyInstCell)).map
          (fun r => r.instituicao) = ["Reserva"] := by
  refine ⟨by decide, by decide, by decide, by decide⟩

theorem c8_witness :
    (⟨"SP", "Reserva", "01/11/2024 a 15/12/2024", "10/02/2025", "", "", none⟩ : Rec).uf ≠ "" ∧
      (⟨"SP", "Reserva", "01/11/2024 a 15/12/2024", "10/02/2025", "", "",
        none⟩ : Rec).instituicao ≠ "" :=
  c8_emitted_nonempty.1 tableEmptyInstCell (headersOf tableEmptyInstCell) _ (by decide)

/-- C10 (confirmed): the extractor skips the first row exactly when a `thead`
element is present; with no `thead`, every row of the table — including the
first row, whose cells supplied the header labels — is iterated as a body
row, and when that first row has at least 3 cells and non-empty resolved
region and institution text, its record is first in the extractor's output. -/
theorem c10_first_row_not_skipped (tb : HTable) (headers : List String) :
    (tb.thead = none →
      parse_main_table tb headers = (allRows tb).filterMap (rowRecord (header_map headers))) ∧
      (tb.thead.isSome = true →
        parse_main_table tb headers =
          (allRows tb).tail.filterMap (rowRecord (header_map headers))) ∧
      ∀ r rs, tb.thead = none → allRows tb = r :: rs → ¬r.cells.length < 3 →
        ufOf (header_map headers) r ≠ "" → selOf (header_map headers) r ≠ "" →
        ∃ rec, rowRecord (header_map headers) r = some rec ∧
          (parse_main_table tb headers).head? = some rec := by
  refine ⟨?_, ?_, ?_⟩
  · intro h
    unfold parse_main_table
    rw [h]
    rfl
  · intro h
    unfold parse_main_table
    rw [h]
    by_cases he : (allRows tb).isEmpty = true
    · rw [List.isEmpty_iff] at he
      rw [he]
      rfl
    · have hne : (allRows tb).isEmpty = false := Bool.eq_false_iff.mpr he
      simp only [hne, Bool.true_and, Bool.not_false, if_true]
  · intro r rs h hrows h3 huf hsel
    have hrec : rowRecord (header_map headers) r =
        some ⟨ufOf (header_map headers) r, selOf (header_map headers) r,
          col_text (header_map headers) r.cells "inscricoes",
          col_text (header_map headers) r.cells "prova", "", "",
          editalOf (header_map headers) r⟩ := by
      unfold rowRecord
      rw [if_neg h3]
      have : (ufOf (header_map headers) r == "" || selOf (header_map headers) r == "") =
          false := by
        rw [beq_eq_false_iff_ne.mpr huf, beq_eq_false_iff_ne.mpr hsel]
        rfl
      rw [this]
      rfl
    refine ⟨_, hrec, ?_⟩
    unfold parse_main_table
    rw [h, hrows]
    simp only [Option.isSome_none, Bool.false_and, Bool.false_eq_true, if_false,
      List.filterMap_cons, hrec]
    rfl

theorem c10_witness :
    ∃ rec, rowRecord (header_map (headersOf tableNoThead))
        ⟨[⟨false, "UF", []⟩, ⟨false, "Instituição", []⟩, ⟨false, "Inscrições", []⟩,
          ⟨false, "Prova", []⟩]⟩ = some rec ∧
      (parse_main_table tableNoThead (headersOf tableNoThead)).head? = some rec :=
  (c10_first_row_not_skipped tableNoThead (headersOf tableNoThead)).2.2
    ⟨[⟨false, "UF", []⟩, ⟨false, "Instituição", []⟩, ⟨false, "Inscrições", []⟩,
      ⟨false, "Prova", []⟩]⟩
    [⟨[⟨false, "SP", []⟩, ⟨false, "USP", []⟩, ⟨false, "01/11/2024 a 15/12/2024", []⟩,
      ⟨false, "10/02/2025", []⟩]⟩]
    rfl rfl (by decide) (by decide) (by decide)

theorem detail_empty_of_not_nonempty {o : Detail} (h : nonemptyDetail o = false) :
    o = emptyDetail := by
  rcases o with ⟨_ | a, b, c⟩
  · rcases b with _ | b
    · rcases c with _ | c
      · rfl
      · simp [nonemptyDetail] at h
    · simp [nonemptyDetail] at h
  · simp [nonemptyDetail] at h

theorem tryVariants_findSome (g : String → Option Detail) :
    ∀ (us : List String) (out : Detail), nonemptyDetail out = false →
      tryVariants g us out =
        (us.findSome? fun v => (g v).bind fun o =>
          if nonemptyDetail o then some o else none).getD emptyDetail := by
  intro us
  induction us with
  | nil =>
    intro out hout
    rw [tryVariants, List.findSome?_nil]
    exact detail_empty_of_not_nonempty hout
  | cons u us ih =>
    intro out hout
    rw [tryVariants, List.findSome?_cons]
    rcases hg : g u with _ | o
    · exact ih out hout
    · dsimp only
      rw [Option.some_bind]
      by_cases ho : nonemptyDetail o = true
      · rw [if_pos ho, if_pos ho]
        rfl
      · rw [if_neg ho, if_neg ho]
        exact ih o (Bool.eq_false_iff.mpr ho)

/-- C6 (confirmed): the resolver never raises (it is a total function of the
fetch oracle); with an absent notice URL it returns the empty result at
once; otherwise it tries exactly the four URL variants of the resolved base
URL in order — the URL itself, with a trailing slash enforced, with an
`amp` query marker added, with the explicit `/amp/` suffix — returning the
first extraction that recognizes at least one of the three fields, and the
empty result when every variant fails or recognizes nothing. -/
theorem c6_variant_order_and_early_stop (fetch : String → Option DetailPage)
    (edital_url : String) :
    parse_detail_page fetch edital_url =
      if edital_url == "" then emptyDetail
      else
        ([baseOf edital_url, ensureSlash (baseOf edital_url), addAmp (baseOf edital_url),
            ampSuffix (baseOf edital_url)].findSome? fun v =>
          ((fetch v).map extract_detail).bind fun o =>
            if nonemptyDetail o then some o else none).getD emptyDetail := by
  unfold parse_detail_page
  by_cases h : (edital_url == "") = true
  · rw [if_pos h, if_pos h]
  · rw [if_neg h, if_neg h]
    exact tryVariants_findSome _ (variantsOf (baseOf edital_url)) emptyDetail rfl

theorem sleeps_shift (b : ℚ) (i n : Nat) :
    (List.range (n + 1)).map (fun t => b * 2 ^ (i + t)) =
      b * 2 ^ i :: (List.range n).map fun t => b * 2 ^ (i + 1 + t) := by
  rw [List.range_succ_eq_map, List.map_cons, List.map_map]
  refine congrArg₂ _ (by rw [Nat.add_zero]) ?_
  refine List.map_congr_left fun t _ => ?_
  show b * 2 ^ (i + (t + 1)) = b * 2 ^ (i + 1 + t)
  have he : i + (t + 1) = i + 1 + t := by omega
  rw [he]

theorem req_go_all_fail (resp : Nat → Outcome) (b : ℚ) :
    ∀ (rem i : Nat), (∀ k, i ≤ k → k < i + rem → attemptOk (resp k) = false) →
      req_get_go resp b i rem = (none, rem, (List.range rem).map fun t => b * 2 ^ (i + t)) := by
  intro rem
  induction rem with
  | zero => intro i _; rfl
  | succ rem ih =>
    intro i h
    have h0 : ¬(attemptOk (resp i) = true) := by
      rw [h i (Nat.le_refl i) (by omega)]
      exact Bool.false_ne_true
    rw [req_get_go, if_neg h0, ih (i + 1) fun k hk1 hk2 => h k (by omega) (by omega),
      sleeps_shift b i rem]

theorem req_go_success (resp : Nat → Outcome) (b : ℚ) :
    ∀ (rem i j : Nat), i ≤ j → j < i + rem → attemptOk (resp j) = true →
      (∀ k, i ≤ k → k < j → attemptOk (resp k) = false) →
      req_get_go resp b i rem =
        (some j, j - i + 1, (List.range (j - i)).map fun t => b * 2 ^ (i + t)) := by
  intro rem
  induction rem with
  | zero => intro i j h1 h2; omega
  | succ rem ih =>
    intro i j h1 h2 hj hk
    by_cases hij : i = j
    · subst hij
      rw [req_get_go, if_pos hj]
      simp
    · have h0 : ¬(attemptOk (resp i) = true) := by
        rw [hk i (Nat.le_refl i) (by omega)]
        exact Bool.false_ne_true
      have he1 : j - i = (j - (i + 1)) + 1 := by omega
      rw [req_get_go, if_neg h0,
        ih (i + 1) j (by omega) (by omega) hj fun k hk1 hk2 => hk k (by omega) hk2,
        he1, sleeps_shift b i (j - (i + 1))]

/-- C7 (corrected): every failed attempt — a transport failure, a server
error status (5xx) or equally a client error status (4xx), which
`raise_for_status` turns into an exception caught by the same handler — is
retried with exponentially doubling backoff, up to the bounded count of 4
tries; after attempt `i` fails the code sleeps `b * 2 ^ i`; the first
successful attempt returns at once.  No status is failed immediately
without retrying. -/
theorem c7_every_failure_retried (resp : Nat → Outcome) (b : ℚ) :
    ((∀ i, i < 4 → attemptOk (resp i) = false) →
        req_get_run resp b = (none, 4, (List.range 4).map fun t => b * 2 ^ t)) ∧
      ∀ j, j < 4 → attemptOk (resp j) = true → (∀ i, i < j → attemptOk (resp i) = false) →
        req_get_run resp b = (some j, j + 1, (List.range j).map fun t => b * 2 ^ t) := by
  constructor
  · intro h
    rw [req_get_run, req_go_all_fail resp b 4 0 fun k hk1 hk2 => h k (by omega)]
    refine congrArg _ (congrArg _ ?_)
    refine List.map_congr_left fun t _ => ?_
    rw [Nat.zero_add]
  · intro j hj hja hbefore
    rw [req_get_run, req_go_success resp b 4 0 j (Nat.zero_le j) (by omega) hja
      fun k hk1 hk2 => hbefore k hk2]
    have : j - 0 = j := by omega
    rw [this]
    refine congrArg _ (congrArg _ ?_)
    refine List.map_congr_left fun t _ => ?_
    rw [Nat.zero_add]

theorem c7_witness :
    req_get_run (fun i => if i = 0 then Outcome.transport else Outcome.status 200) 1 =
      (some 1, 2, (List.range 1).map fun t => (1 : ℚ) * 2 ^ t) :=
  (c7_every_failure_retried (fun i => if i = 0 then Outcome.transport else Outcome.status 200)
    1).2 1 (by decide) (by decide) (by decide)

/-- C7 as stated is false: a client-error status (404) on every attempt is
not failed immediately — the fetch makes all 4 attempts, sleeping after each
one, before re-raising. -/
theorem c7_as_stated_counterexample :
    req_get_run (fun _ => Outcome.status 404) 1 = (none, 4, [1, 2, 4, 8]) ∧
      (req_get_run (fun _ => Outcome.status 404) 1).2.1 ≠ 1 := by
  have h : req_get_run (fun _ => Outcome.status 404) 1 = (none, 4, [1, 2, 4, 8]) := by
    norm_num [req_get_run, req_get_go, attemptOk]
  refine ⟨h, ?_⟩
  rw [h]
  norm_num

end Calendario

